import Mathlib

/-!
Verification development for the zopfli compression-kernel excerpt.

The Rust sources embedded here (shallowly) are:
  src/zopfli/cache.rs      — the longest-match cache (LMC) sublen table
  src/zopfli/deflate.rs    — RLE count rewriter, buggy-decoder patch,
                             block-symbol-size evaluators
  src/zopfli/squeeze.rs    — the fixed-tree cost model
  src/zopfli/katajainen.rs — length-limited Huffman code lengths
  src/zopfli/lz77.rs       — the LZ77 token store

Machine integers are modelled as Nat with explicit `% 2^w` at the points
where the Rust code truncates (`as c_uint`, `as c_uchar`, wrapping release
arithmetic).  Fallible code paths (Rust `assert!`) are modelled with Option.
Byte arrays behind raw pointers are modelled as functions `Nat → Nat`
updated pointwise; growable vectors as `List Nat`.
-/

/-- Pointwise update of a function-modelled byte array (one `*ptr.offset(k) = v`). -/
def upd (c : Nat → Nat) (k v : Nat) : Nat → Nat :=
  fun x => if x = k then v else c x

/-- Write `dist` into every slot `lo ≤ x ≤ hi` of a function-modelled array:
the `while i <= length` fill loop of ZopfliCacheToSublen. -/
def writeRange (out : Nat → Nat) (lo hi dist : Nat) : Nat → Nat :=
  fun x => if lo ≤ x ∧ x ≤ hi then dist else out x

/-- Modelled from the spec: `symbols.rs` (module `symbols`) is not part of the
excerpt, only its callers are.  §4.A: pure table mapping a match length in
[3,258] to its DEFLATE literal/length symbol 257–285, generated from RFC 1951
(length 258 maps to symbol 285). -/
def ZopfliGetLengthSymbol (l : Nat) : Nat :=
  if l ≤ 10 then 254 + l
  else if l ≤ 12 then 265
  else if l ≤ 14 then 266
  else if l ≤ 16 then 267
  else if l ≤ 18 then 268
  else if l ≤ 22 then 269
  else if l ≤ 26 then 270
  else if l ≤ 30 then 271
  else if l ≤ 34 then 272
  else if l ≤ 42 then 273
  else if l ≤ 50 then 274
  else if l ≤ 58 then 275
  else if l ≤ 66 then 276
  else if l ≤ 82 then 277
  else if l ≤ 98 then 278
  else if l ≤ 114 then 279
  else if l ≤ 130 then 280
  else if l ≤ 162 then 281
  else if l ≤ 194 then 282
  else if l ≤ 226 then 283
  else if l ≤ 257 then 284
  else 285

/-- Modelled from the spec: `symbols.rs` is not in the excerpt.  §4.A: extra
bits of the DEFLATE length code for a match length in [3,258] (RFC 1951;
length 258 has 0 extra bits). -/
def ZopfliGetLengthExtraBits (l : Nat) : Nat :=
  if l ≤ 10 then 0
  else if l ≤ 18 then 1
  else if l ≤ 34 then 2
  else if l ≤ 66 then 3
  else if l ≤ 130 then 4
  else if l ≤ 257 then 5
  else 0

/-- Modelled from the spec: `symbols.rs` is not in the excerpt.  §4.A: extra
bits of a DEFLATE length symbol in [257,285] (RFC 1951; symbol 285 has 0). -/
def ZopfliGetLengthSymbolExtraBits (s : Nat) : Nat :=
  if s ≤ 264 then 0
  else if s ≤ 268 then 1
  else if s ≤ 272 then 2
  else if s ≤ 276 then 3
  else if s ≤ 280 then 4
  else if s ≤ 284 then 5
  else 0

/-- Modelled from the spec: `symbols.rs` is not in the excerpt.  §4.A: pure
table mapping a distance in [1,32768] to its DEFLATE distance symbol 0–29
(RFC 1951). -/
def ZopfliGetDistSymbol (d : Nat) : Nat :=
  if d ≤ 1 then 0
  else if d ≤ 2 then 1
  else if d ≤ 3 then 2
  else if d ≤ 4 then 3
  else if d ≤ 6 then 4
  else if d ≤ 8 then 5
  else if d ≤ 12 then 6
  else if d ≤ 16 then 7
  else if d ≤ 24 then 8
  else if d ≤ 32 then 9
  else if d ≤ 48 then 10
  else if d ≤ 64 then 11
  else if d ≤ 96 then 12
  else if d ≤ 128 then 13
  else if d ≤ 192 then 14
  else if d ≤ 256 then 15
  else if d ≤ 384 then 16
  else if d ≤ 512 then 17
  else if d ≤ 768 then 18
  else if d ≤ 1024 then 19
  else if d ≤ 1536 then 20
  else if d ≤ 2048 then 21
  else if d ≤ 3072 then 22
  else if d ≤ 4096 then 23
  else if d ≤ 6144 then 24
  else if d ≤ 8192 then 25
  else if d ≤ 12288 then 26
  else if d ≤ 16384 then 27
  else if d ≤ 24576 then 28
  else 29

/-- Modelled from the spec: `symbols.rs` is not in the excerpt.  §4.A: extra
bits of the DEFLATE distance code for a distance in [1,32768] (RFC 1951). -/
def ZopfliGetDistExtraBits (d : Nat) : Nat :=
  if d ≤ 4 then 0
  else if d ≤ 8 then 1
  else if d ≤ 16 then 2
  else if d ≤ 32 then 3
  else if d ≤ 64 then 4
  else if d ≤ 128 then 5
  else if d ≤ 256 then 6
  else if d ≤ 512 then 7
  else if d ≤ 1024 then 8
  else if d ≤ 2048 then 9
  else if d ≤ 4096 then 10
  else if d ≤ 8192 then 11
  else if d ≤ 16384 then 12
  else 13

/-- Modelled from the spec: `symbols.rs` is not in the excerpt.  §4.A: extra
bits of a DEFLATE distance symbol in [0,29] (RFC 1951). -/
def ZopfliGetDistSymbolExtraBits (s : Nat) : Nat :=
  if s ≤ 3 then 0 else s / 2 - 1

/-- squeeze.rs `GetCostFixed`: bit cost of one token under the fixed DEFLATE
tree.  The Rust function computes an integer and casts it to c_double at the
end; the integer is what we model. -/
def GetCostFixed (litlen dist : Nat) : Nat :=
  if dist = 0 then
    if litlen ≤ 143 then 8 else 9
  else
    let dbits := ZopfliGetDistExtraBits dist
    let lbits := ZopfliGetLengthExtraBits litlen
    let lsym := ZopfliGetLengthSymbol litlen
    let cost := if lsym ≤ 279 then 7 else 8
    cost + 5 + dbits + lbits


/-! ### katajainen.rs — length-limited Huffman code lengths

The excerpt's `length_limited_code_lengths` builds and sorts the leaves and
initializes the per-list lookahead chains, but its boundary package-merge
loop is missing from the excerpt (the body returns all zeros; the spec's
design notes say the loop must be completed per §4.D and that the test
vectors are authoritative).  The loop below is therefore modelled from the
spec; leaf construction, the weight-index packing sort, list initialization
(katajainen.rs lines 114-142) and `ExtractBitLengths` (lines 48-77) follow
the source. -/

/-- A chain node: katajainen.rs `Node` (weight, count, tail); `null` is the
null tail pointer. -/
inductive PMChain where
  | null
  | node (weight : Nat) (count : Nat) (tail : PMChain)

def PMChain.weight : PMChain → Nat
  | .null => 0
  | .node w _ _ => w

def PMChain.count : PMChain → Nat
  | .null => 0
  | .node _ c _ => c

def PMChain.tail : PMChain → PMChain
  | .null => .null
  | .node _ _ t => t

def pmDummy : PMChain × PMChain :=
  (PMChain.node 0 0 .null, PMChain.node 0 0 .null)

/-- Modelled from the spec: the boundary package-merge step (§4.D steps 4-5),
absent from the excerpt.  The new chain in list `index` takes the next leaf
(weight `leaves[next]`, count `next+1`) or packages the two lookahead chains
of list `index-1` (weight = their sum, count inherited, tail = lookahead2 of
list `index-1`), whichever weighs less; list 0 only takes leaves and stops
once all leaves are used.  Packaging uses up the previous list's lookaheads,
so it triggers two recursive steps there. -/
def boundaryPM (leaves : List (Nat × Nat)) (numsymbols : Nat) :
    Nat → List (PMChain × PMChain) → List (PMChain × PMChain)
  | 0, lists =>
    let pair := lists.getD 0 pmDummy
    let lastcount := pair.2.count
    if numsymbols ≤ lastcount then lists
    else
      lists.set 0 (pair.2, PMChain.node (leaves.getD lastcount (0, 0)).1 (lastcount + 1) .null)
  | index + 1, lists =>
    let pair := lists.getD (index + 1) pmDummy
    let lastcount := pair.2.count
    let prev := lists.getD index pmDummy
    let sum := prev.1.weight + prev.2.weight
    if lastcount < numsymbols ∧ (leaves.getD lastcount (0, 0)).1 < sum then
      lists.set (index + 1)
        (pair.2, PMChain.node (leaves.getD lastcount (0, 0)).1 (lastcount + 1) pair.2.tail)
    else
      let lists' := lists.set (index + 1) (pair.2, PMChain.node sum lastcount prev.2)
      boundaryPM leaves numsymbols index (boundaryPM leaves numsymbols index lists')

/-- Modelled from the spec (§4.D step 5): iterate the boundary package-merge
step on the last list. -/
def pmRuns (leaves : List (Nat × Nat)) (numsymbols index : Nat) :
    Nat → List (PMChain × PMChain) → List (PMChain × PMChain)
  | 0, lists => lists
  | n + 1, lists => pmRuns leaves numsymbols index n (boundaryPM leaves numsymbols index lists)

/-- katajainen.rs `ExtractBitLengths` chain walk: `counts[end] = node.count`
walking tail pointers, i.e. the counts of the chain in order, occupying the
top `len` slots of a 16-entry zero array. -/
def pmChainCounts : PMChain → List Nat
  | .null => []
  | .node _ c t => pmChainCounts t ++ [c]

/-- Reading `counts[i]` of `ExtractBitLengths` (zero below `end = 16 - len`). -/
def pmCountsAt (cs : List Nat) (i : Nat) : Nat :=
  if i < 16 - cs.length then 0 else cs.getD (i - (16 - cs.length)) 0

/-- katajainen.rs `ExtractBitLengths` inner loop:
`while val > counts[ptr-1] { bitlengths[leaves[val-1].count] = value; val -= 1 }`.
`val` itself is the decreasing fuel. -/
def pmInner (leaves : List (Nat × Nat)) (value target : Nat) :
    Nat → (Nat → Nat) → Nat × (Nat → Nat)
  | 0, bl => (0, bl)
  | val + 1, bl =>
    if target < val + 1 then
      pmInner leaves value target val (upd bl (leaves.getD val (0, 0)).2 value)
    else (val + 1, bl)

/-- katajainen.rs `ExtractBitLengths` outer loop: `ptr` walks from 15 down to
`end`, `value` counts up from 1. -/
def pmEmit (leaves : List (Nat × Nat)) (cs : List Nat) :
    Nat → Nat → Nat → Nat → (Nat → Nat) → (Nat → Nat)
  | 0, _ptr, _val, _value, bl => bl
  | fuel + 1, ptr, val, value, bl =>
    let r := pmInner leaves value (pmCountsAt cs (ptr - 1)) val bl
    pmEmit leaves cs fuel (ptr - 1) r.1 (value + 1) r.2

/-- katajainen.rs `ExtractBitLengths` (lines 48-77). -/
def ExtractBitLengths (chain : PMChain) (leaves : List (Nat × Nat)) (n : Nat) : List Nat :=
  let cs := pmChainCounts chain
  (List.range n).map (pmEmit leaves cs cs.length 15 (pmCountsAt cs 15) 1 (fun _ => 0))

/-- katajainen.rs `length_limited_code_lengths`.  Leaf construction, the
`(weight << 9) | index` stable-sort packing and the list initialization are
from the source (lines 114-142).  Modelled from the spec: the m ≤ 2 early
answer (§4.D step 3), the `2·m - 2` boundary package-merge steps on the last
list counting the two initial chains (§4.D step 5), and the final extraction
call, all missing from the excerpt. -/
def length_limited_code_lengths (frequencies : List Nat) (maxbits : Nat) : List Nat :=
  let packed := (frequencies.enum.filter (fun p => p.2 ≠ 0)).map
    (fun p => (((p.2 <<< 9) ||| p.1) % 2 ^ 64, p.1))
  let sorted := List.insertionSort (fun a b : Nat × Nat => a.1 ≤ b.1) packed
  let leaves := sorted.map (fun p => (p.1 >>> 9, p.2))
  let numsymbols := leaves.length
  if numsymbols ≤ 2 then
    leaves.foldl (fun r p => r.set p.2 1) (List.replicate frequencies.length 0)
  else
    let init := List.replicate maxbits
      (PMChain.node (leaves.getD 0 (0, 0)).1 1 .null, PMChain.node (leaves.getD 1 (0, 0)).1 2 .null)
    let final := pmRuns leaves numsymbols (maxbits - 1) (2 * numsymbols - 4) init
    ExtractBitLengths (final.getD (maxbits - 1) pmDummy).2 leaves frequencies.length


/-! ### cache.rs — the longest-match cache sublen table

`ZOPFLI_CACHE_LENGTH` is 8 (§6 tunables).  The `sublen` byte array behind the
raw pointer is modelled as a function `Nat → Nat`; position `pos` owns bytes
`8*pos*3 ..`.  The Rust `assert!`s of `ZopfliSublenToCache` abort on failure,
so that function returns `Option`. -/

/-- cache.rs `ZopfliMaxCachedSublen` (lines 66-80): 0 when the dist bytes of
the first sublen entry are both zero, else the length byte of the last slot
plus 3. -/
def ZopfliMaxCachedSublen (c : Nat → Nat) (pos : Nat) : Nat :=
  let start := 8 * pos * 3
  if c (start + 1) = 0 ∧ c (start + 2) = 0 then 0
  else c (start + 7 * 3) + 3

/-- The three byte stores of one sublen entry in `ZopfliSublenToCache`:
`(i-3) as c_uchar`, `dist % 256`, `(dist >> 8) % 256`. -/
def stcSlot (v : Nat → Nat) (start : Nat) (c : Nat → Nat) (j i : Nat) : Nat → Nat :=
  upd (upd (upd c (start + j * 3) ((i - 3) % 256))
    (start + j * 3 + 1) (v i % 256)) (start + j * 3 + 2) (v i / 256 % 256)

/-- cache.rs `ZopfliSublenToCache` scan loop (lines 135-148): `i` walks 3..=L,
recording an entry whenever `i == L` or `v i ≠ v (i+1)`, breaking after 8
entries.  `fuel = L + 1 - i`; `best` holds `bestlength` (a c_uint, hence the
`% 2^32`).  Returns (cache, j, bestlength). -/
def stcGo (v : Nat → Nat) (start L : Nat) :
    Nat → Nat → Nat → Nat → (Nat → Nat) → ((Nat → Nat) × Nat × Nat)
  | 0, _i, j, best, c => (c, j, best)
  | fuel + 1, i, j, best, c =>
    if i = L ∨ v i ≠ v (i + 1) then
      let c' := stcSlot v start c j i
      if 8 ≤ j + 1 then (c', j + 1, i % 2 ^ 32)
      else stcGo v start L fuel (i + 1) (j + 1) (i % 2 ^ 32) c'
    else stcGo v start L fuel (i + 1) j best c

/-- cache.rs `ZopfliSublenToCache` (lines 119-158).  After the scan, if fewer
than 8 slots were used the length byte of slot 7 is set to `bestlength - 3`
(release-mode wrapping subtraction on a c_uint, then `as c_uchar`).  The three
`assert!`s are modelled by returning `none` when they would abort. -/
def ZopfliSublenToCache (v : Nat → Nat) (pos L : Nat) (c : Nat → Nat) : Option (Nat → Nat) :=
  if L < 3 then some c
  else
    let start := 8 * pos * 3
    let r := stcGo v start L (L - 2) 3 0 0 c
    if r.2.1 < 8 then
      if r.2.2 = L % 2 ^ 32 then
        let c' := upd r.1 (start + 7 * 3) ((r.2.2 + (2 ^ 32 - 3)) % 2 ^ 32 % 256)
        if r.2.2 = ZopfliMaxCachedSublen c' pos then some c' else none
      else none
    else
      if r.2.2 ≤ L % 2 ^ 32 then
        if r.2.2 = ZopfliMaxCachedSublen r.1 pos then some r.1 else none
      else none

/-- cache.rs `ZopfliCacheToSublen` entry loop (lines 100-113): slot `j` holds
`(length byte + 3, lo + 256*hi)`; fill `out[prevlength..=length]`, stop when
the entry length equals `maxlength`.  `fuel` counts the remaining slots. -/
def ctsGo (c : Nat → Nat) (start maxlength : Nat) :
    Nat → Nat → Nat → (Nat → Nat) → (Nat → Nat)
  | 0, _j, _prev, out => out
  | fuel + 1, j, prev, out =>
    let len := c (start + j * 3) + 3
    let dist := c (start + j * 3 + 1) + 256 * c (start + j * 3 + 2)
    let out' := writeRange out prev len dist
    if len = maxlength then out'
    else ctsGo c start maxlength fuel (j + 1) (len + 1) out'

/-- cache.rs `ZopfliCacheToSublen` (lines 84-115). -/
def ZopfliCacheToSublen (c : Nat → Nat) (pos L : Nat) (out : Nat → Nat) : Nat → Nat :=
  let maxlength := ZopfliMaxCachedSublen c pos
  if L < 3 then out
  else ctsGo c (8 * pos * 3) maxlength 8 0 0 out

/-- The first breakpoint of the scan of `ZopfliSublenToCache` at or after `i`:
the least index of `[i, L]` where an entry is recorded (`nbGo` carries
`fuel = L - i`, so running out of fuel means `i = L`). -/
def nbGo (v : Nat → Nat) : Nat → Nat → Nat
  | 0, i => i
  | fuel + 1, i => if v i ≠ v (i + 1) then i else nbGo v fuel (i + 1)

/-- The least `b` with `i ≤ b ≤ L` such that `b = L` or `v b ≠ v (b+1)`. -/
def nextBp (v : Nat → Nat) (L i : Nat) : Nat :=
  if L ≤ i then L else nbGo v (L - i) i

/-- Breakpoint-jumping reformulation of `stcGo`: record an entry at the next
breakpoint and continue after it.  `fuel` counts the remaining slots
(`fuel + j = 8` at every call). -/
def specLoop (v : Nat → Nat) (start L : Nat) :
    Nat → Nat → Nat → (Nat → Nat) → ((Nat → Nat) × Nat × Nat)
  | 0, _j, _i, c => (c, 8, 0)
  | fuel + 1, j, i, c =>
    let b := nextBp v L i
    let c' := stcSlot v start c j b
    if 8 ≤ j + 1 ∨ b = L then (c', j + 1, b % 2 ^ 32)
    else specLoop v start L fuel (j + 1) (b + 1) c'

/-- The invariant tying cache slots `j, j+1, ...` to a breakpoint chain: slot
`j` holds the bytes of breakpoint `b` (length byte exact because `b ≤ 258`),
`v` is constant on `[prev, b]`, later breakpoints are larger, and the rest of
the chain satisfies the invariant from slot `j+1` with `prev = b+1`. -/
def ReadChainInv (c v : Nat → Nat) (start : Nat) : Nat → Nat → List Nat → Prop
  | _j, _prev, [] => True
  | j, prev, b :: rest =>
      c (start + j * 3) = b - 3 ∧
      c (start + j * 3 + 1) = v b % 256 ∧
      c (start + j * 3 + 2) = v b / 256 % 256 ∧
      3 ≤ b ∧ b ≤ 258 ∧ v b < 65536 ∧ prev ≤ b + 1 ∧
      (∀ x, 3 ≤ x → prev ≤ x → x ≤ b → v x = v b) ∧
      (∀ b2 ∈ rest, b < b2) ∧
      ReadChainInv c v start (j + 1) (b + 1) rest

/-- The all-zero byte array (a freshly initialized cache, cache.rs lines 35-37). -/
def zeroF : Nat → Nat := fun _ => 0

/-- A sublen table with one sub-length transition at 300: constant 5 up to
index 300, constant 7 beyond. -/
def vBig (i : Nat) : Nat := if i ≤ 300 then 5 else 7

/-- A length just past the c_uint range: `bestlength = i as c_uint` truncates
it to 100. -/
def LBig : Nat := 2 ^ 32 + 100

/-- The sublen table of spec scenario S4: distance 5 for lengths 3-5, 7 for
6-7, 9 for 8. -/
def vS4 (i : Nat) : Nat := if i ≤ 5 then 5 else if i ≤ 7 then 7 else 9

/-! ### deflate.rs — tree shaping and block-symbol-size accounting -/

/-- One stride-collapse of `OptimizeHuffmanForRle`: the loop position `i` at
which the stride ended, the stride length, the accumulated sum, and the count
value written over the stride. -/
structure OhfrEvent where
  pos : Nat
  stride : Nat
  sum : Nat
  val : Nat
deriving DecidableEq, Repr

/-- Rust `as i32` on a size_t value: keep the low 32 bits, reinterpret signed. -/
def toI32 (n : Nat) : Int :=
  if n % 2 ^ 32 < 2 ^ 31 then (n % 2 ^ 32 : Nat) else (n % 2 ^ 32 : Nat) - 2 ^ 32

/-- Release-mode wrapping of an i32 computation. -/
def wrapI32 (x : Int) : Int := (x + 2 ^ 31) % 2 ^ 32 - 2 ^ 31

/-- Release-mode `i32::abs` (wrapping: the minimum stays put). -/
def absI32 (x : Int) : Int := if x = -(2 ^ 31) then -(2 ^ 31) else |x|

/-- The stride-collapse write loop of `OptimizeHuffmanForRle` (deflate.rs
lines 95-99): set `counts[i - k - 1] = count` for `k < stride`. -/
def writeStride (c : List Nat) (i cnt stride : Nat) : List Nat :=
  (List.range stride).foldl (fun acc k => acc.set (i - k - 1) cnt) c

/-- The run-marking write loop of `OptimizeHuffmanForRle` (deflate.rs lines
65-67): set `good_for_rle[i - k - 1] = 1` for `k < stride`. -/
def markStride (g : List Nat) (i stride : Nat) : List Nat :=
  (List.range stride).foldl (fun acc k => acc.set (i - k - 1) 1) g

/-- Phase 2 of `OptimizeHuffmanForRle` (deflate.rs lines 60-76): mark runs of
equal values (length ≥ 5 for zeros, ≥ 7 otherwise) as good for RLE.
`fuel = n + 1 - i`. -/
def gfrGo (c : List Nat) (n : Nat) :
    Nat → Nat → Nat → Nat → List Nat → List Nat
  | 0, _i, _symbol, _stride, good => good
  | fuel + 1, i, symbol, stride, good =>
    if i = n ∨ c.getD i 0 ≠ symbol then
      let good' := if (symbol = 0 ∧ 5 ≤ stride) ∨ (symbol ≠ 0 ∧ 7 ≤ stride) then
        markStride good i stride else good
      let symbol' := if i ≠ n then c.getD i 0 else symbol
      gfrGo c n fuel (i + 1) symbol' 1 good'
    else gfrGo c n fuel (i + 1) symbol (stride + 1) good

/-- Phase 3 of `OptimizeHuffmanForRle` (deflate.rs lines 79-119), instrumented
to also log each stride collapse as an `OhfrEvent`.  `sum` and `limit` live in
size_t (wrapping adds, hence the `% 2^64`); the stride-interruption test casts
both operands to i32 (`(c[i] as i32 - limit as i32).abs() >= 4`, release
semantics).  The Rust slice `c` aliases the written array, and all reads are
at indices ≥ i while all writes are at indices < i, so a single evolving list
is faithful.  `fuel = n + 1 - i`. -/
def ohfrGo (n : Nat) (good : List Nat) :
    Nat → Nat → Nat → Nat → Nat → List Nat → List Nat × List OhfrEvent
  | 0, _i, _stride, _limit, _sum, c => (c, [])
  | fuel + 1, i, stride, limit, sum, c =>
    if i = n ∨ good.getD i 0 ≠ 0 ∨ 4 ≤ absI32 (wrapI32 (toI32 (c.getD i 0) - toI32 limit)) then
      if 4 ≤ stride ∨ (3 ≤ stride ∧ sum = 0) then
        let count0 := (sum + stride / 2) % 2 ^ 64 / stride
        let count1 := if count0 < 1 then 1 else count0
        let cnt := if sum = 0 then 0 else count1
        let c' := writeStride c i cnt stride
        let limit' := if 2 < n ∧ i < n - 3 then
            (c'.getD i 0 + c'.getD (i + 1) 0 + c'.getD (i + 2) 0 + c'.getD (i + 3) 0 + 2) % 2 ^ 64 / 4
          else if i < n then c'.getD i 0 else 0
        let r := ohfrGo n good fuel (i + 1) 1 limit'
          (if i ≠ n then c'.getD i 0 % 2 ^ 64 else 0) c'
        (r.1, ⟨i, stride, sum, cnt⟩ :: r.2)
      else
        let limit' := if 2 < n ∧ i < n - 3 then
            (c.getD i 0 + c.getD (i + 1) 0 + c.getD (i + 2) 0 + c.getD (i + 3) 0 + 2) % 2 ^ 64 / 4
          else if i < n then c.getD i 0 else 0
        ohfrGo n good fuel (i + 1) 1 limit' (if i ≠ n then c.getD i 0 % 2 ^ 64 else 0) c
    else
      ohfrGo n good fuel (i + 1) (stride + 1) limit ((sum + c.getD i 0) % 2 ^ 64) c

/-- Phase 1 of `OptimizeHuffmanForRle` (deflate.rs lines 42-51): trim trailing
zeros, i.e. one past the last non-zero index (0 when all zero). -/
def trimmedLength (c : List Nat) : Nat → Nat
  | 0 => 0
  | len + 1 => if c.getD len 0 ≠ 0 then len + 1 else trimmedLength c len

/-- deflate.rs `OptimizeHuffmanForRle` (lines 36-120), with the stride-collapse
event log.  When all counts are zero the function returns at phase 1. -/
def OptimizeHuffmanForRleAux (counts : List Nat) : List Nat × List OhfrEvent :=
  let n := trimmedLength counts counts.length
  if n = 0 then (counts, [])
  else
    let good := gfrGo counts n (n + 1) 0 (counts.getD 0 0) 0 (List.replicate n 0)
    ohfrGo n good (n + 1) 0 0 (counts.getD 0 0) 0 counts

/-- deflate.rs `OptimizeHuffmanForRle`: the rewritten counts array. -/
def OptimizeHuffmanForRle (counts : List Nat) : List Nat :=
  (OptimizeHuffmanForRleAux counts).1

/-- The stride collapses performed by `OptimizeHuffmanForRle`, in order. -/
def ohfrEvents (counts : List Nat) : List OhfrEvent :=
  (OptimizeHuffmanForRleAux counts).2

/-- deflate.rs `PatchDistanceCodesForBuggyDecoders` counting loop (lines
135-145): scan `d_lengths[0..30]`, returning early (`none`) as soon as two
non-zero codes are seen, else the final count. -/
def pdcLoop (d : Nat → Nat) : Nat → Nat → Nat → Option Nat
  | 0, _i, num => some num
  | fuel + 1, i, num =>
    let num' := if d i ≠ 0 then num + 1 else num
    if 2 ≤ num' then none
    else pdcLoop d fuel (i + 1) num'

/-- deflate.rs `PatchDistanceCodesForBuggyDecoders` (lines 134-162). -/
def PatchDistanceCodesForBuggyDecoders (d : Nat → Nat) : Nat → Nat :=
  match pdcLoop d 30 0 0 with
  | none => d
  | some num =>
    if num = 0 then upd (upd d 0 1) 1 1
    else if num = 1 then (if d 0 = 0 then upd d 0 1 else upd d 1 1)
    else d

/-- The number of non-zero entries among the first 30 distance code lengths. -/
def countNonzeroDist (d : Nat → Nat) : Nat :=
  ((List.range 30).filter (fun i => d i ≠ 0)).length

/-- deflate.rs `CalculateBlockSymbolSizeSmall` (lines 168-191).  The store is
its `litlens`/`dists` vectors; `result` is a c_uint, so every `+=` wraps at
2^32. -/
def CalculateBlockSymbolSizeSmall (ll d : Nat → Nat) (litlens dists : List Nat)
    (lstart lend : Nat) : Nat :=
  let r := (List.range' lstart (lend - lstart)).foldl
    (fun result i =>
      let litlen := litlens.getD i 0
      let dist := dists.getD i 0
      if dist = 0 then (result + ll litlen) % 2 ^ 32
      else
        let llsym := ZopfliGetLengthSymbol litlen
        let dsym := ZopfliGetDistSymbol dist
        ((((result + ll llsym) % 2 ^ 32 + d dsym) % 2 ^ 32
          + ZopfliGetLengthSymbolExtraBits llsym) % 2 ^ 32
          + ZopfliGetDistSymbolExtraBits dsym) % 2 ^ 32)
    0
  (r + ll 256) % 2 ^ 32

/-- The same token-by-token total in unbounded arithmetic: the true bit size
of the range. -/
def blockSymbolSizeSmallTrue (ll d : Nat → Nat) (litlens dists : List Nat)
    (lstart lend : Nat) : Nat :=
  ((List.range' lstart (lend - lstart)).map
    (fun i =>
      if dists.getD i 0 = 0 then ll (litlens.getD i 0)
      else ll (ZopfliGetLengthSymbol (litlens.getD i 0))
        + d (ZopfliGetDistSymbol (dists.getD i 0))
        + ZopfliGetLengthSymbolExtraBits (ZopfliGetLengthSymbol (litlens.getD i 0))
        + ZopfliGetDistSymbolExtraBits (ZopfliGetDistSymbol (dists.getD i 0)))).sum
  + ll 256

/-- Modelled from the spec: `get_histogram` of lz77.rs is not in the excerpt
(deflate.rs only imports it).  §4.C: its chunked cumulative computation
"produces identical counts to a naïve loop", which is what we take: the
literal/length histogram of tokens `[lstart, lend)`. -/
def get_histogram_ll (litlens dists : List Nat) (lstart lend : Nat) : Nat → Nat :=
  fun s => (List.range' lstart (lend - lstart)).countP
    (fun i => (if dists.getD i 0 = 0 then litlens.getD i 0
      else ZopfliGetLengthSymbol (litlens.getD i 0)) = s)

/-- Modelled from the spec: the distance histogram of `get_histogram` as the
naïve recount (§4.C); literal tokens contribute no distance count. -/
def get_histogram_d (litlens dists : List Nat) (lstart lend : Nat) : Nat → Nat :=
  fun s => (List.range' lstart (lend - lstart)).countP
    (fun i => dists.getD i 0 ≠ 0 ∧ ZopfliGetDistSymbol (dists.getD i 0) = s)

/-- deflate.rs `CalculateBlockSymbolSizeGivenCounts` (lines 196-216).  Counts
are size_t and are cast to c_uint (`% 2^32`) before the 32-bit multiplies;
`result` is a c_uint.  Ranges shorter than 3·288 fall back to the small
evaluator. -/
def CalculateBlockSymbolSizeGivenCounts (ll_counts d_counts ll d : Nat → Nat)
    (litlens dists : List Nat) (lstart lend : Nat) : Nat :=
  if lend < lstart + 288 * 3 then
    CalculateBlockSymbolSizeSmall ll d litlens dists lstart lend
  else
    let r1 := (List.range' 0 256).foldl
      (fun result i => (result + ll i * (ll_counts i % 2 ^ 32)) % 2 ^ 32) 0
    let r2 := (List.range' 257 29).foldl
      (fun result i =>
        ((result + ll i * (ll_counts i % 2 ^ 32)) % 2 ^ 32
          + (ZopfliGetLengthSymbolExtraBits i * (ll_counts i % 2 ^ 32)) % 2 ^ 32) % 2 ^ 32) r1
    let r3 := (List.range' 0 30).foldl
      (fun result i =>
        ((result + d i * (d_counts i % 2 ^ 32)) % 2 ^ 32
          + (ZopfliGetDistSymbolExtraBits i * (d_counts i % 2 ^ 32)) % 2 ^ 32) % 2 ^ 32) r2
    (r3 + ll 256) % 2 ^ 32

/-- The same histogram-weighted total in unbounded arithmetic: the true bit
size computed from the counts. -/
def blockSymbolSizeGivenCountsTrue (ll_counts d_counts ll d : Nat → Nat)
    (litlens dists : List Nat) (lstart lend : Nat) : Nat :=
  if lend < lstart + 288 * 3 then
    blockSymbolSizeSmallTrue ll d litlens dists lstart lend
  else
    ((List.range' 0 256).map (fun i => ll i * ll_counts i)).sum
    + ((List.range' 257 29).map
        (fun i => ll i * ll_counts i + ZopfliGetLengthSymbolExtraBits i * ll_counts i)).sum
    + ((List.range' 0 30).map
        (fun i => d i * d_counts i + ZopfliGetDistSymbolExtraBits i * d_counts i)).sum
    + ll 256

/-- deflate.rs `CalculateBlockSymbolSize` (lines 223-230): dispatch on range
size; large ranges use the store histogram. -/
def CalculateBlockSymbolSize (ll d : Nat → Nat) (litlens dists : List Nat)
    (lstart lend : Nat) : Nat :=
  if lend < lstart + 288 * 3 then
    CalculateBlockSymbolSizeSmall ll d litlens dists lstart lend
  else
    CalculateBlockSymbolSizeGivenCounts
      (get_histogram_ll litlens dists lstart lend)
      (get_histogram_d litlens dists lstart lend) ll d litlens dists lstart lend

/-- The data-model constraints on a stored token (§3): a literal is a byte; a
match has length in [3,258] and distance in [1,32768]. -/
def validToken (litlen dist : Nat) : Prop :=
  (dist = 0 → litlen < 256) ∧
  (dist ≠ 0 → 3 ≤ litlen ∧ litlen ≤ 258 ∧ 1 ≤ dist ∧ dist ≤ 32768)

/-! ## Theorems -/

/-- A list containing two distinct elements has length at least two. -/
theorem two_mem_le_length {i j : Nat} (hne : i ≠ j) :
    ∀ l : List Nat, i ∈ l → j ∈ l → 2 ≤ l.length := by
  intro l
  induction l with
  | nil => intro hi _; cases hi
  | cons a t ih =>
    intro hi hj
    simp only [List.mem_cons] at hi hj
    simp only [List.length_cons]
    rcases hi with rfl | hit
    · rcases hj with rfl | hjt
      · exact absurd rfl hne
      · have := List.length_pos_of_mem hjt; omega
    · rcases hj with rfl | hjt
      · have := List.length_pos_of_mem hit; omega
      · have := ih hit hjt; omega

/-- Two distinct non-zero distance codes below 30 put the count at two or more. -/
theorem countNonzeroDist_two (d : Nat → Nat) (i j : Nat) (hne : i ≠ j)
    (hi : i < 30) (hj : j < 30) (hdi : d i ≠ 0) (hdj : d j ≠ 0) :
    2 ≤ countNonzeroDist d := by
  apply two_mem_le_length hne
  · simp only [List.mem_filter, List.mem_range, decide_eq_true_eq]
    exact ⟨hi, hdi⟩
  · simp only [List.mem_filter, List.mem_range, decide_eq_true_eq]
    exact ⟨hj, hdj⟩

/-- The counting loop of the patch: on completion it returns the number of
non-zero codes scanned (staying below 2); on early return at least two
non-zero codes were seen. -/
theorem pdcLoop_spec (d : Nat → Nat) : ∀ (fuel i num : Nat), num < 2 →
    (∀ m, pdcLoop d fuel i num = some m →
      m = num + (List.range' i fuel).countP (fun k => d k ≠ 0) ∧ m < 2) ∧
    (pdcLoop d fuel i num = none →
      2 ≤ num + (List.range' i fuel).countP (fun k => d k ≠ 0)) := by
  intro fuel
  induction fuel with
  | zero =>
    intro i num hnum
    refine ⟨fun m hm => ?_, fun hm => ?_⟩
    · simp only [pdcLoop, Option.some.injEq] at hm
      simp [← hm, hnum]
    · simp [pdcLoop] at hm
  | succ fuel ih =>
    intro i num hnum
    have hrw : (List.range' i (fuel + 1)).countP (fun k => d k ≠ 0)
        = (List.range' (i + 1) fuel).countP (fun k => d k ≠ 0)
          + (if d i ≠ 0 then 1 else 0) := by
      rw [List.range'_succ, List.countP_cons]
      by_cases hdi : d i ≠ 0 <;> simp [hdi]
    by_cases hdi : d i ≠ 0
    · by_cases h2 : 2 ≤ num + 1
      · have hnone : pdcLoop d (fuel + 1) i num = none := by
          show (if 2 ≤ (if d i ≠ 0 then num + 1 else num) then none
            else pdcLoop d fuel (i + 1) (if d i ≠ 0 then num + 1 else num)) = none
          rw [if_pos hdi, if_pos h2]
        refine ⟨fun m hm => ?_, fun _ => ?_⟩
        · rw [hnone] at hm; cases hm
        · rw [hrw, if_pos hdi]; omega
      · have hstep : pdcLoop d (fuel + 1) i num = pdcLoop d fuel (i + 1) (num + 1) := by
          show (if 2 ≤ (if d i ≠ 0 then num + 1 else num) then none
            else pdcLoop d fuel (i + 1) (if d i ≠ 0 then num + 1 else num)) = _
          rw [if_pos hdi, if_neg h2]
        have IH := ih (i + 1) (num + 1) (by omega)
        refine ⟨fun m hm => ?_, fun hm => ?_⟩
        · rw [hstep] at hm
          have h3 := IH.1 m hm
          rw [hrw, if_pos hdi]; omega
        · rw [hstep] at hm
          have h3 := IH.2 hm
          rw [hrw, if_pos hdi]; omega
    · have hstep : pdcLoop d (fuel + 1) i num = pdcLoop d fuel (i + 1) num := by
        show (if 2 ≤ (if d i ≠ 0 then num + 1 else num) then none
          else pdcLoop d fuel (i + 1) (if d i ≠ 0 then num + 1 else num)) = _
        rw [if_neg hdi, if_neg (by omega : ¬ 2 ≤ num)]
      have IH := ih (i + 1) num hnum
      refine ⟨fun m hm => ?_, fun hm => ?_⟩
      · rw [hstep] at hm
        have h3 := IH.1 m hm
        rw [hrw, if_neg hdi]; omega
      · rw [hstep] at hm
        have h3 := IH.2 hm
        rw [hrw, if_neg hdi]; omega

/-- C4: for every distance code-length array, after
`PatchDistanceCodesForBuggyDecoders` runs, at least two of the first 30
entries are non-zero. -/
theorem PatchDistanceCodesForBuggyDecoders_two_codes (d : Nat → Nat) :
    2 ≤ countNonzeroDist (PatchDistanceCodesForBuggyDecoders d) := by
  have hcnt : countNonzeroDist d = (List.range' 0 30).countP (fun k => d k ≠ 0) := by
    unfold countNonzeroDist
    rw [← List.countP_eq_length_filter, List.range_eq_range']
  unfold PatchDistanceCodesForBuggyDecoders
  rcases hl : pdcLoop d 30 0 0 with _ | num
  · have h2 := (pdcLoop_spec d 30 0 0 (by omega)).2 hl
    rw [hcnt]; omega
  · have hs := (pdcLoop_spec d 30 0 0 (by omega)).1 num hl
    rcases hs with ⟨hs1, hs2⟩
    by_cases h0 : num = 0
    · subst h0
      simp only [if_pos rfl]
      exact countNonzeroDist_two _ 0 1 (by omega) (by omega) (by omega)
        (by simp [upd]) (by simp [upd])
    · have h1 : num = 1 := by omega
      subst h1
      simp only [if_neg h0, if_pos rfl]
      have hpos : 0 < (List.range' 0 30).countP (fun k => d k ≠ 0) := by omega
      obtain ⟨k, hkmem, hk⟩ := List.countP_pos_iff.mp hpos
      have hk30 : k < 30 := by
        have := List.mem_range'_1.mp hkmem
        omega
      simp only [decide_eq_true_eq] at hk
      by_cases hd0 : d 0 = 0
      · rw [if_pos hd0]
        have hk0 : k ≠ 0 := fun h => hk (h ▸ hd0)
        refine countNonzeroDist_two _ 0 k hk0.symm (by omega) hk30 (by simp [upd]) ?_
        simpa [upd, hk0] using hk
      · rw [if_neg hd0]
        refine countNonzeroDist_two _ 0 1 (by omega) (by omega) (by omega) ?_ (by simp [upd])
        simpa [upd] using hd0

/-- C5: the fixed-tree cost model charges a literal 8 bits up to byte 143 and
9 above; a match pays 7 or 8 base bits by length symbol, 5 distance bits, and
the two extra-bit counts; including the four spec scenario values. -/
theorem GetCostFixed_spec :
    (∀ litlen, GetCostFixed litlen 0 = if litlen ≤ 143 then 8 else 9) ∧
    (∀ litlen dist, dist ≠ 0 →
      GetCostFixed litlen dist =
        (if ZopfliGetLengthSymbol litlen ≤ 279 then 7 else 8) + 5
          + ZopfliGetLengthExtraBits litlen + ZopfliGetDistExtraBits dist) ∧
    GetCostFixed 140 0 = 8 ∧ GetCostFixed 200 0 = 9 ∧
    GetCostFixed 3 1 = 12 ∧ GetCostFixed 258 32768 = 26 := by
  refine ⟨fun litlen => by simp [GetCostFixed], fun litlen dist hd => ?_,
    by decide, by decide, by decide, by decide⟩
  simp only [GetCostFixed, if_neg hd]
  omega

/-- Witness for C5 at the match (3, 1). -/
theorem GetCostFixed_spec_witness :
    GetCostFixed 3 1 =
      (if ZopfliGetLengthSymbol 3 ≤ 279 then 7 else 8) + 5
        + ZopfliGetLengthExtraBits 3 + ZopfliGetDistExtraBits 1 :=
  GetCostFixed_spec.2.1 3 1 (by decide)

/-- C1: the length-limited code lengths of the paper example at maxbits 3. -/
theorem length_limited_code_lengths_paper3 :
    length_limited_code_lengths [1, 1, 5, 7, 10, 14] 3 = [3, 3, 3, 3, 2, 2] := by decide

/-- Filtering the non-zero entries commutes with enumeration, up to length. -/
theorem enumFrom_filter_snd_length :
    ∀ (l : List Nat) (n : Nat),
      ((List.enumFrom n l).filter (fun p => p.2 ≠ 0)).length
        = (l.filter (fun f => f ≠ 0)).length := by
  intro l
  induction l with
  | nil => intro n; rfl
  | cons a t ih =>
    intro n
    rw [show List.enumFrom n (a :: t) = (n, a) :: List.enumFrom (n + 1) t from rfl,
      List.filter_cons, List.filter_cons]
    by_cases ha : a = 0
    · rw [if_neg (by simp [ha]), if_neg (by simp [ha])]
      exact ih (n + 1)
    · rw [if_pos (by simp [ha]), if_pos (by simp [ha])]
      simp only [List.length_cons]
      rw [ih (n + 1)]

/-- Once a slot holds 1, the fold writing ones keeps it at 1. -/
theorem foldl_set_one_stay :
    ∀ (L : List (Nat × Nat)) (r : List Nat) (i : Nat), r.getD i 0 = 1 →
      (L.foldl (fun r p => r.set p.2 1) r).getD i 0 = 1 := by
  intro L
  induction L with
  | nil => intro r i h; exact h
  | cons p t ih =>
    intro r i h
    simp only [List.foldl_cons]
    apply ih
    have hi : i < r.length := by
      by_contra hge
      rw [List.getD_eq_getElem?_getD, List.getElem?_eq_none (by omega)] at h
      simp at h
    by_cases hpi : p.2 = i
    · rw [List.getD_eq_getElem?_getD, hpi, List.getElem?_set_self hi]
      rfl
    · rw [List.getD_eq_getElem?_getD, List.getElem?_set_ne hpi,
        ← List.getD_eq_getElem?_getD]
      exact h

/-- The fold writing ones puts 1 at every index of the leaf list. -/
theorem foldl_set_one_mem :
    ∀ (L : List (Nat × Nat)) (r : List Nat) (i : Nat), i ∈ L.map Prod.snd →
      i < r.length → (L.foldl (fun r p => r.set p.2 1) r).getD i 0 = 1 := by
  intro L
  induction L with
  | nil => intro r i h _; simp at h
  | cons p t ih =>
    intro r i hmem hlen
    simp only [List.map_cons, List.mem_cons] at hmem
    simp only [List.foldl_cons]
    rcases hmem with rfl | hmt
    · apply foldl_set_one_stay
      rw [List.getD_eq_getElem?_getD, List.getElem?_set_self hlen]
      rfl
    · exact ih (r.set p.2 1) i hmt (by simpa using hlen)

/-- C7: when at most two frequencies are non-zero, every used symbol gets
code length 1 (for any sufficient maxbits ≥ 1). -/
theorem length_limited_code_lengths_small (frequencies : List Nat) (maxbits : Nat)
    (hm : (frequencies.filter (fun f => f ≠ 0)).length ≤ 2) (hmb : 1 ≤ maxbits)
    (i : Nat) (hi : i < frequencies.length) (hf : frequencies.getD i 0 ≠ 0) :
    (length_limited_code_lengths frequencies maxbits).getD i 0 = 1 := by
  have hcond : ((List.insertionSort (fun a b : Nat × Nat => a.1 ≤ b.1)
      ((frequencies.enum.filter (fun p => p.2 ≠ 0)).map
        (fun p => (((p.2 <<< 9) ||| p.1) % 2 ^ 64, p.1)))).map
      (fun p => (p.1 >>> 9, p.2))).length ≤ 2 := by
    rw [List.length_map, (List.perm_insertionSort _ _).length_eq, List.length_map,
      show frequencies.enum = List.enumFrom 0 frequencies from rfl,
      enumFrom_filter_snd_length]
    exact hm
  have hgd : frequencies.getD i 0 = frequencies[i] := by
    rw [List.getD_eq_getElem?_getD, List.getElem?_eq_getElem hi]
    rfl
  have h1 : (i, frequencies.getD i 0) ∈ frequencies.enum := by
    rw [List.mk_mem_enum_iff_getElem?, List.getElem?_eq_getElem hi, hgd]
  have h2 : (i, frequencies.getD i 0) ∈ frequencies.enum.filter (fun p => p.2 ≠ 0) :=
    List.mem_filter.mpr ⟨h1, by simpa using hf⟩
  have h3 := List.mem_map_of_mem
    (fun p : Nat × Nat => (((p.2 <<< 9) ||| p.1) % 2 ^ 64, p.1)) h2
  have h4 := (List.perm_insertionSort (fun a b : Nat × Nat => a.1 ≤ b.1) _).mem_iff.mpr h3
  have h5 := List.mem_map_of_mem (fun p : Nat × Nat => (p.1 >>> 9, p.2)) h4
  have h6 := List.mem_map_of_mem Prod.snd h5
  simp only [length_limited_code_lengths]
  rw [if_pos hcond]
  exact foldl_set_one_mem _ _ i h6 (by simpa using hi)

/-- Witness for C7 on the two-symbol array [5, 3]. -/
theorem length_limited_code_lengths_small_witness :
    (([5, 3] : List Nat).filter (fun f => f ≠ 0)).length ≤ 2 ∧
    (length_limited_code_lengths [5, 3] 3).getD 0 0 = 1 :=
  ⟨by decide, length_limited_code_lengths_small [5, 3] 3 (by decide) (by decide) 0
    (by decide) (by decide)⟩

/-- Every stride collapse logged by phase 3 ends a stride of length ≥ 4 (or
≥ 3 with zero sum), and writes the value 0 for a zero sum and otherwise the
rounded average clamped below at 1. -/
theorem ohfrGo_events_spec (n : Nat) (good : List Nat) : ∀ (fuel : Nat),
    ∀ i stride limit sum c e, e ∈ (ohfrGo n good fuel i stride limit sum c).2 →
    (4 ≤ e.stride ∨ (3 ≤ e.stride ∧ e.sum = 0)) ∧
      e.val = (if e.sum = 0 then 0
        else max 1 ((e.sum + e.stride / 2) % 2 ^ 64 / e.stride)) := by
  intro fuel
  induction fuel with
  | zero =>
    intro i stride limit sum c e he
    simp [ohfrGo] at he
  | succ fuel ih =>
    intro i stride limit sum c e he
    simp only [ohfrGo] at he
    split at he
    · split at he
      · rename_i hcond hstride
        dsimp only at he
        rw [List.mem_cons] at he
        rcases he with rfl | he
        · refine ⟨hstride, ?_⟩
          dsimp only
          by_cases hs : sum = 0
          · simp [hs]
          · rw [if_neg hs, if_neg hs]
            split <;> omega
        · exact ih _ _ _ _ _ _ he
      · exact ih _ _ _ _ _ _ he
    · exact ih _ _ _ _ _ _ he

/-- C6 amended: every stride collapse of `OptimizeHuffmanForRle` writes 0 when
the stride sum is 0, and otherwise the rounded average clamped below at 1
(the claim's plain rounded average misses the clamp). -/
theorem ohfrEvents_spec (counts : List Nat) (e : OhfrEvent)
    (he : e ∈ ohfrEvents counts) :
    (4 ≤ e.stride ∨ (3 ≤ e.stride ∧ e.sum = 0)) ∧
      e.val = (if e.sum = 0 then 0
        else max 1 ((e.sum + e.stride / 2) % 2 ^ 64 / e.stride)) := by
  simp only [ohfrEvents, OptimizeHuffmanForRleAux] at he
  split at he
  · simp at he
  · exact ohfrGo_events_spec _ _ _ _ _ _ _ _ _ he

/-- Witness for C6 (amended) at the single collapse of [0, 0, 0, 1]. -/
theorem ohfrEvents_spec_witness :
    (4 ≤ (OhfrEvent.mk 4 4 1 1).stride ∨
      (3 ≤ (OhfrEvent.mk 4 4 1 1).stride ∧ (OhfrEvent.mk 4 4 1 1).sum = 0)) ∧
    (OhfrEvent.mk 4 4 1 1).val = (if (OhfrEvent.mk 4 4 1 1).sum = 0 then 0
      else max 1 (((OhfrEvent.mk 4 4 1 1).sum + (OhfrEvent.mk 4 4 1 1).stride / 2)
        % 2 ^ 64 / (OhfrEvent.mk 4 4 1 1).stride)) :=
  ohfrEvents_spec [0, 0, 0, 1] ⟨4, 4, 1, 1⟩ (by decide)

/-- Counterexample to C6 as stated: on [0, 0, 0, 1] the single stride of 4
with sum 1 ends at i = 4 and every entry is replaced by 1 — the clamped
value — while the claimed rounded average (1 + 4/2) / 4 is 0. -/
theorem ohfr_rounded_average_cex :
    OptimizeHuffmanForRle [0, 0, 0, 1] = [1, 1, 1, 1] ∧
    ohfrEvents [0, 0, 0, 1] = [⟨4, 4, 1, 1⟩] ∧
    ((1 : Nat) + 4 / 2) / 4 = 0 := by decide

/-- A fold of `List.set` writes leaves the length unchanged. -/
theorem foldl_set_length (L : List Nat) : ∀ (c : List Nat) (f : Nat → Nat) (v : Nat),
    (L.foldl (fun acc k => acc.set (f k) v) c).length = c.length := by
  induction L with
  | nil => intro c f v; rfl
  | cons a t ih =>
    intro c f v
    simp only [List.foldl_cons]
    rw [ih, List.length_set]

/-- A fold of `List.set` writes does not touch an index none of the writes hit. -/
theorem foldl_set_getD_ne (L : List Nat) : ∀ (c : List Nat) (f : Nat → Nat) (v j : Nat),
    (∀ k ∈ L, f k ≠ j) → (L.foldl (fun acc k => acc.set (f k) v) c).getD j 0 = c.getD j 0 := by
  induction L with
  | nil => intro c f v j _; rfl
  | cons a t ih =>
    intro c f v j hne
    simp only [List.foldl_cons]
    rw [ih _ _ _ _ (fun k hk => hne k (List.mem_cons_of_mem a hk)),
      List.getD_eq_getElem?_getD, List.getElem?_set_ne (hne a (List.mem_cons_self a t)),
      ← List.getD_eq_getElem?_getD]

/-- Phase 3 preserves the array length and every entry at or beyond the
trimmed length `n` (all its writes land strictly below the loop index, which
stays at most `n`). -/
theorem ohfrGo_frame (n : Nat) (good : List Nat) : ∀ (fuel : Nat),
    ∀ i stride limit sum c, stride ≤ i → i + fuel = n + 1 →
    (ohfrGo n good fuel i stride limit sum c).1.length = c.length ∧
    ∀ j, n ≤ j → (ohfrGo n good fuel i stride limit sum c).1.getD j 0 = c.getD j 0 := by
  intro fuel
  induction fuel with
  | zero =>
    intro i stride limit sum c _ _
    exact ⟨rfl, fun j _ => rfl⟩
  | succ fuel ih =>
    intro i stride limit sum c hsi hfuel
    have hin : i ≤ n := by omega
    simp only [ohfrGo]
    split
    · split
      · rename_i hcond hstride
        have IH := fun limit sum cnt => ih (i + 1) 1 limit sum
          (writeStride c i cnt stride) (by omega) (by omega)
        have hwl : ∀ cnt, (writeStride c i cnt stride).length = c.length :=
          fun cnt => foldl_set_length _ _ _ _
        have hws : ∀ cnt j, n ≤ j →
            (writeStride c i cnt stride).getD j 0 = c.getD j 0 := by
          intro cnt j hj
          apply foldl_set_getD_ne
          intro k hk
          have := List.mem_range.mp hk
          omega
        dsimp only
        refine ⟨?_, fun j hj => ?_⟩
        · rw [(IH _ _ _).1, hwl _]
        · rw [(IH _ _ _).2 j hj, hws _ j hj]
      · exact ih (i + 1) 1 _ _ c (by omega) (by omega)
    · exact ih (i + 1) (stride + 1) _ _ c (by omega) (by omega)

/-- C8 amended: `OptimizeHuffmanForRle` preserves the length of the counts
array and every entry strictly after the last non-zero entry (at or beyond
the trimmed length); the entry at the last non-zero position itself may
change. -/
theorem OptimizeHuffmanForRle_frame (counts : List Nat) :
    (OptimizeHuffmanForRle counts).length = counts.length ∧
    ∀ j, trimmedLength counts counts.length ≤ j →
      (OptimizeHuffmanForRle counts).getD j 0 = counts.getD j 0 := by
  simp only [OptimizeHuffmanForRle, OptimizeHuffmanForRleAux]
  split
  · exact ⟨rfl, fun j _ => rfl⟩
  · rename_i hn
    have h := ohfrGo_frame (trimmedLength counts counts.length)
      (gfrGo counts (trimmedLength counts counts.length)
        (trimmedLength counts counts.length + 1) 0 (counts.getD 0 0) 0
        (List.replicate (trimmedLength counts counts.length) 0))
      (trimmedLength counts counts.length + 1) 0 0 (counts.getD 0 0) 0 counts
      (by omega) (by omega)
    exact ⟨h.1, fun j hj => h.2 j hj⟩

/-- Witness for C8 (amended) on [2, 0]: length preserved and the trailing
zero (index 1, strictly after the last non-zero entry at 0) unchanged. -/
theorem OptimizeHuffmanForRle_frame_witness :
    (OptimizeHuffmanForRle [2, 0]).length = ([2, 0] : List Nat).length ∧
    (OptimizeHuffmanForRle [2, 0]).getD 1 0 = ([2, 0] : List Nat).getD 1 0 :=
  ⟨(OptimizeHuffmanForRle_frame [2, 0]).1,
    (OptimizeHuffmanForRle_frame [2, 0]).2 1 (by decide)⟩

/-- Counterexample to C8 as stated: on [10, 10, 10, 13] the last non-zero
entry sits at index 3 (the trimmed length is 4), yet the rewrite changes it
from 13 to 11 — the entry AT the last non-zero position does not keep its
value, only those strictly after it do. -/
theorem ohfr_last_nonzero_modified_cex :
    OptimizeHuffmanForRle [10, 10, 10, 13] = [11, 11, 11, 11] ∧
    trimmedLength [10, 10, 10, 13] 4 = 4 ∧
    ([10, 10, 10, 13] : List Nat).getD 3 0 = 13 ∧
    (OptimizeHuffmanForRle [10, 10, 10, 13]).getD 3 0 = 11 := by decide

/-- A fold of wrapping additions is the wrapped sum (c_uint accumulation). -/
theorem foldl_add_mod32 (g : Nat → Nat) :
    ∀ (L : List Nat) (a : Nat), a < 2 ^ 32 →
      L.foldl (fun r i => (r + g i) % 2 ^ 32) a = (a + (L.map g).sum) % 2 ^ 32 := by
  intro L
  induction L with
  | nil =>
    intro a ha
    simp only [List.foldl_nil, List.map_nil, List.sum_nil]
    omega
  | cons x t ih =>
    intro a ha
    simp only [List.foldl_cons, List.map_cons, List.sum_cons]
    rw [ih _ (Nat.mod_lt _ (by norm_num))]
    omega

/-- A fold of two-term wrapping additions is the wrapped sum of both terms. -/
theorem foldl_add2_mod32 (g h : Nat → Nat) :
    ∀ (L : List Nat) (a : Nat), a < 2 ^ 32 →
      L.foldl (fun r i => ((r + g i) % 2 ^ 32 + h i % 2 ^ 32) % 2 ^ 32) a
        = (a + (L.map (fun i => g i + h i)).sum) % 2 ^ 32 := by
  intro L
  induction L with
  | nil =>
    intro a ha
    simp only [List.foldl_nil, List.map_nil, List.sum_nil]
    omega
  | cons x t ih =>
    intro a ha
    simp only [List.foldl_cons, List.map_cons, List.sum_cons]
    rw [ih _ (Nat.mod_lt _ (by norm_num))]
    omega

/-- Sums of pointwise mod-congruent terms are mod-congruent. -/
theorem sum_mod_congr (M : Nat) :
    ∀ (L : List Nat) (f g : Nat → Nat), (∀ i ∈ L, f i % M = g i % M) →
      (L.map f).sum % M = (L.map g).sum % M := by
  intro L
  induction L with
  | nil => intro f g _; rfl
  | cons x t ih =>
    intro f g hfg
    simp only [List.map_cons, List.sum_cons]
    rw [Nat.add_mod, hfg x (List.mem_cons_self x t),
      ih f g (fun i hi => hfg i (List.mem_cons_of_mem x hi)), ← Nat.add_mod]

/-- The token-loop of the small evaluator is the wrapped true token sum. -/
theorem small_fold (ll d : Nat → Nat) (litlens dists : List Nat) :
    ∀ (L : List Nat) (a : Nat), a < 2 ^ 32 →
      L.foldl (fun result i =>
        if dists.getD i 0 = 0 then (result + ll (litlens.getD i 0)) % 2 ^ 32
        else
          ((((result + ll (ZopfliGetLengthSymbol (litlens.getD i 0))) % 2 ^ 32
            + d (ZopfliGetDistSymbol (dists.getD i 0))) % 2 ^ 32
            + ZopfliGetLengthSymbolExtraBits (ZopfliGetLengthSymbol (litlens.getD i 0))) % 2 ^ 32
            + ZopfliGetDistSymbolExtraBits (ZopfliGetDistSymbol (dists.getD i 0))) % 2 ^ 32) a
      = (a + (L.map (fun i =>
          if dists.getD i 0 = 0 then ll (litlens.getD i 0)
          else ll (ZopfliGetLengthSymbol (litlens.getD i 0))
            + d (ZopfliGetDistSymbol (dists.getD i 0))
            + ZopfliGetLengthSymbolExtraBits (ZopfliGetLengthSymbol (litlens.getD i 0))
            + ZopfliGetDistSymbolExtraBits (ZopfliGetDistSymbol (dists.getD i 0)))).sum) % 2 ^ 32 := by
  intro L
  induction L with
  | nil =>
    intro a ha
    simp only [List.foldl_nil, List.map_nil, List.sum_nil]
    omega
  | cons x t ih =>
    intro a ha
    simp only [List.foldl_cons, List.map_cons, List.sum_cons]
    by_cases hd : dists.getD x 0 = 0
    · rw [if_pos hd, if_pos hd, ih _ (Nat.mod_lt _ (by norm_num))]
      omega
    · rw [if_neg hd, if_neg hd, ih _ (Nat.mod_lt _ (by norm_num))]
      omega

/-- C10 helper: the small evaluator returns the true token total mod 2^32. -/
theorem CalculateBlockSymbolSizeSmall_mod (ll d : Nat → Nat) (litlens dists : List Nat)
    (lstart lend : Nat) :
    CalculateBlockSymbolSizeSmall ll d litlens dists lstart lend
      = blockSymbolSizeSmallTrue ll d litlens dists lstart lend % 2 ^ 32 := by
  simp only [CalculateBlockSymbolSizeSmall, blockSymbolSizeSmallTrue]
  rw [small_fold ll d litlens dists _ 0 (by norm_num)]
  omega

/-- Multiplying a truncated count behaves like the true product mod 2^32. -/
theorem mul_mod_right32 (a b : Nat) : a * (b % 2 ^ 32) % 2 ^ 32 = a * b % 2 ^ 32 := by
  rw [Nat.mul_mod, Nat.mod_mod, ← Nat.mul_mod]

/-- Two-term variant of `mul_mod_right32`. -/
theorem addmul_mod_right32 (a b c : Nat) :
    (a * (c % 2 ^ 32) + b * (c % 2 ^ 32)) % 2 ^ 32 = (a * c + b * c) % 2 ^ 32 := by
  rw [Nat.add_mod, mul_mod_right32, mul_mod_right32, ← Nat.add_mod]

/-- C10 helper: the histogram evaluator returns the true weighted total
mod 2^32. -/
theorem CalculateBlockSymbolSizeGivenCounts_mod (ll_counts d_counts ll d : Nat → Nat)
    (litlens dists : List Nat) (lstart lend : Nat) :
    CalculateBlockSymbolSizeGivenCounts ll_counts d_counts ll d litlens dists lstart lend
      = blockSymbolSizeGivenCountsTrue ll_counts d_counts ll d litlens dists lstart lend
        % 2 ^ 32 := by
  simp only [CalculateBlockSymbolSizeGivenCounts, blockSymbolSizeGivenCountsTrue]
  split
  · exact CalculateBlockSymbolSizeSmall_mod ll d litlens dists lstart lend
  · rw [foldl_add_mod32 _ _ 0 (by norm_num),
      foldl_add2_mod32 _ _ _ _ (Nat.mod_lt _ (by norm_num)),
      foldl_add2_mod32 _ _ _ _ (Nat.mod_lt _ (by norm_num))]
    have c1 := sum_mod_congr (2 ^ 32) (List.range' 0 256)
      (fun i => ll i * (ll_counts i % 2 ^ 32)) (fun i => ll i * ll_counts i)
      (fun i _ => mul_mod_right32 _ _)
    have c2 := sum_mod_congr (2 ^ 32) (List.range' 257 29)
      (fun i => ll i * (ll_counts i % 2 ^ 32)
        + ZopfliGetLengthSymbolExtraBits i * (ll_counts i % 2 ^ 32))
      (fun i => ll i * ll_counts i + ZopfliGetLengthSymbolExtraBits i * ll_counts i)
      (fun i _ => addmul_mod_right32 _ _ _)
    have c3 := sum_mod_congr (2 ^ 32) (List.range' 0 30)
      (fun i => d i * (d_counts i % 2 ^ 32)
        + ZopfliGetDistSymbolExtraBits i * (d_counts i % 2 ^ 32))
      (fun i => d i * d_counts i + ZopfliGetDistSymbolExtraBits i * d_counts i)
      (fun i _ => addmul_mod_right32 _ _ _)
    omega

/-- The DEFLATE length symbol of a match length in [3,258] lies in [257,285]. -/
theorem ZopfliGetLengthSymbol_bounds (l : Nat) (h3 : 3 ≤ l) (h258 : l ≤ 258) :
    257 ≤ ZopfliGetLengthSymbol l ∧ ZopfliGetLengthSymbol l < 286 := by
  unfold ZopfliGetLengthSymbol
  by_cases h0 : l ≤ 10
  · rw [if_pos h0]; omega
  · rw [if_neg h0]
    by_cases h1 : l ≤ 12
    · rw [if_pos h1]; omega
    · rw [if_neg h1]
      by_cases h2 : l ≤ 14
      · rw [if_pos h2]; omega
      · rw [if_neg h2]
        by_cases h3 : l ≤ 16
        · rw [if_pos h3]; omega
        · rw [if_neg h3]
          by_cases h4 : l ≤ 18
          · rw [if_pos h4]; omega
          · rw [if_neg h4]
            by_cases h5 : l ≤ 22
            · rw [if_pos h5]; omega
            · rw [if_neg h5]
              by_cases h6 : l ≤ 26
              · rw [if_pos h6]; omega
              · rw [if_neg h6]
                by_cases h7 : l ≤ 30
                · rw [if_pos h7]; omega
                · rw [if_neg h7]
                  by_cases h8 : l ≤ 34
                  · rw [if_pos h8]; omega
                  · rw [if_neg h8]
                    by_cases h9 : l ≤ 42
                    · rw [if_pos h9]; omega
                    · rw [if_neg h9]
                      by_cases h10 : l ≤ 50
                      · rw [if_pos h10]; omega
                      · rw [if_neg h10]
                        by_cases h11 : l ≤ 58
                        · rw [if_pos h11]; omega
                        · rw [if_neg h11]
                          by_cases h12 : l ≤ 66
                          · rw [if_pos h12]; omega
                          · rw [if_neg h12]
                            by_cases h13 : l ≤ 82
                            · rw [if_pos h13]; omega
                            · rw [if_neg h13]
                              by_cases h14 : l ≤ 98
                              · rw [if_pos h14]; omega
                              · rw [if_neg h14]
                                by_cases h15 : l ≤ 114
                                · rw [if_pos h15]; omega
                                · rw [if_neg h15]
                                  by_cases h16 : l ≤ 130
                                  · rw [if_pos h16]; omega
                                  · rw [if_neg h16]
                                    by_cases h17 : l ≤ 162
                                    · rw [if_pos h17]; omega
                                    · rw [if_neg h17]
                                      by_cases h18 : l ≤ 194
                                      · rw [if_pos h18]; omega
                                      · rw [if_neg h18]
                                        by_cases h19 : l ≤ 226
                                        · rw [if_pos h19]; omega
                                        · rw [if_neg h19]
                                          by_cases h20 : l ≤ 257
                                          · rw [if_pos h20]; omega
                                          · rw [if_neg h20]
                                            omega

/-- The DEFLATE distance symbol is always below 30 (every branch of the
table is). -/
theorem ZopfliGetDistSymbol_lt (d : Nat) : ZopfliGetDistSymbol d < 30 := by
  unfold ZopfliGetDistSymbol
  by_cases h0 : d ≤ 1
  · rw [if_pos h0]; omega
  · rw [if_neg h0]
    by_cases h1 : d ≤ 2
    · rw [if_pos h1]; omega
    · rw [if_neg h1]
      by_cases h2 : d ≤ 3
      · rw [if_pos h2]; omega
      · rw [if_neg h2]
        by_cases h3 : d ≤ 4
        · rw [if_pos h3]; omega
        · rw [if_neg h3]
          by_cases h4 : d ≤ 6
          · rw [if_pos h4]; omega
          · rw [if_neg h4]
            by_cases h5 : d ≤ 8
            · rw [if_pos h5]; omega
            · rw [if_neg h5]
              by_cases h6 : d ≤ 12
              · rw [if_pos h6]; omega
              · rw [if_neg h6]
                by_cases h7 : d ≤ 16
                · rw [if_pos h7]; omega
                · rw [if_neg h7]
                  by_cases h8 : d ≤ 24
                  · rw [if_pos h8]; omega
                  · rw [if_neg h8]
                    by_cases h9 : d ≤ 32
                    · rw [if_pos h9]; omega
                    · rw [if_neg h9]
                      by_cases h10 : d ≤ 48
                      · rw [if_pos h10]; omega
                      · rw [if_neg h10]
                        by_cases h11 : d ≤ 64
                        · rw [if_pos h11]; omega
                        · rw [if_neg h11]
                          by_cases h12 : d ≤ 96
                          · rw [if_pos h12]; omega
                          · rw [if_neg h12]
                            by_cases h13 : d ≤ 128
                            · rw [if_pos h13]; omega
                            · rw [if_neg h13]
                              by_cases h14 : d ≤ 192
                              · rw [if_pos h14]; omega
                              · rw [if_neg h14]
                                by_cases h15 : d ≤ 256
                                · rw [if_pos h15]; omega
                                · rw [if_neg h15]
                                  by_cases h16 : d ≤ 384
                                  · rw [if_pos h16]; omega
                                  · rw [if_neg h16]
                                    by_cases h17 : d ≤ 512
                                    · rw [if_pos h17]; omega
                                    · rw [if_neg h17]
                                      by_cases h18 : d ≤ 768
                                      · rw [if_pos h18]; omega
                                      · rw [if_neg h18]
                                        by_cases h19 : d ≤ 1024
                                        · rw [if_pos h19]; omega
                                        · rw [if_neg h19]
                                          by_cases h20 : d ≤ 1536
                                          · rw [if_pos h20]; omega
                                          · rw [if_neg h20]
                                            by_cases h21 : d ≤ 2048
                                            · rw [if_pos h21]; omega
                                            · rw [if_neg h21]
                                              by_cases h22 : d ≤ 3072
                                              · rw [if_pos h22]; omega
                                              · rw [if_neg h22]
                                                by_cases h23 : d ≤ 4096
                                                · rw [if_pos h23]; omega
                                                · rw [if_neg h23]
                                                  by_cases h24 : d ≤ 6144
                                                  · rw [if_pos h24]; omega
                                                  · rw [if_neg h24]
                                                    by_cases h25 : d ≤ 8192
                                                    · rw [if_pos h25]; omega
                                                    · rw [if_neg h25]
                                                      by_cases h26 : d ≤ 12288
                                                      · rw [if_pos h26]; omega
                                                      · rw [if_neg h26]
                                                        by_cases h27 : d ≤ 16384
                                                        · rw [if_pos h27]; omega
                                                        · rw [if_neg h27]
                                                          by_cases h28 : d ≤ 24576
                                                          · rw [if_pos h28]; omega
                                                          · rw [if_neg h28]
                                                            omega

/-- Bumping one count by 1 adds that symbol's per-unit contribution to a
symbol-indexed sum, when the symbol occurs once in the index list. -/
theorem sum_map_bump (F : Nat → Nat → Nat) (stepF : Nat → Nat)
    (hF : ∀ s c, F s (c + 1) = F s c + stepF s) (cnt : Nat → Nat) (s0 : Nat) :
    ∀ R : List Nat, R.Nodup → s0 ∈ R →
      (R.map (fun s => F s (cnt s + if s0 = s then 1 else 0))).sum
        = (R.map (fun s => F s (cnt s))).sum + stepF s0 := by
  intro R
  induction R with
  | nil => intro _ h; cases h
  | cons a t ih =>
    intro hnd hmem
    simp only [List.map_cons, List.sum_cons]
    rcases List.mem_cons.mp hmem with rfl | hmt
    · rw [if_pos rfl, hF]
      have hnin : s0 ∉ t := (List.nodup_cons.mp hnd).1
      have htail : (t.map (fun s => F s (cnt s + if s0 = s then 1 else 0))).sum
          = (t.map (fun s => F s (cnt s))).sum :=
        congrArg List.sum (List.map_congr_left (fun s hs => by
          rw [if_neg (fun h => hnin (by rw [h]; exact hs)), Nat.add_zero]))
      rw [htail]
      omega
    · have hne : s0 ≠ a := fun h => (List.nodup_cons.mp hnd).1 (by rw [← h]; exact hmt)
      rw [if_neg hne, Nat.add_zero, ih (List.nodup_cons.mp hnd).2 hmt]
      omega

/-- A symbol outside the index list leaves a symbol-indexed sum unchanged. -/
theorem sum_map_nobump (F : Nat → Nat → Nat) (cnt : Nat → Nat) (s0 : Nat) :
    ∀ R : List Nat, s0 ∉ R →
      (R.map (fun s => F s (cnt s + if s0 = s then 1 else 0))).sum
        = (R.map (fun s => F s (cnt s))).sum := fun R hnin =>
  congrArg List.sum (List.map_congr_left (fun s hs => by
    rw [if_neg (fun h => hnin (by rw [h]; exact hs)), Nat.add_zero]))

/-- The histogram-weighted total equals the token-by-token total: counting
each token once through its literal/length and distance symbols distributes
the token costs over the three symbol-indexed sums. -/
theorem hist_token_sum (ll d : Nat → Nat) (litlens dists : List Nat) :
    ∀ T : List Nat, (∀ i ∈ T, validToken (litlens.getD i 0) (dists.getD i 0)) →
      ((List.range' 0 256).map (fun s => ll s * T.countP (fun i =>
          (if dists.getD i 0 = 0 then litlens.getD i 0
            else ZopfliGetLengthSymbol (litlens.getD i 0)) = s))).sum
      + ((List.range' 257 29).map (fun s => ll s * T.countP (fun i =>
            (if dists.getD i 0 = 0 then litlens.getD i 0
              else ZopfliGetLengthSymbol (litlens.getD i 0)) = s)
          + ZopfliGetLengthSymbolExtraBits s * T.countP (fun i =>
            (if dists.getD i 0 = 0 then litlens.getD i 0
              else ZopfliGetLengthSymbol (litlens.getD i 0)) = s))).sum
      + ((List.range' 0 30).map (fun s => d s * T.countP (fun i =>
            dists.getD i 0 ≠ 0 ∧ ZopfliGetDistSymbol (dists.getD i 0) = s)
          + ZopfliGetDistSymbolExtraBits s * T.countP (fun i =>
            dists.getD i 0 ≠ 0 ∧ ZopfliGetDistSymbol (dists.getD i 0) = s))).sum
      = (T.map (fun i =>
          if dists.getD i 0 = 0 then ll (litlens.getD i 0)
          else ll (ZopfliGetLengthSymbol (litlens.getD i 0))
            + d (ZopfliGetDistSymbol (dists.getD i 0))
            + ZopfliGetLengthSymbolExtraBits (ZopfliGetLengthSymbol (litlens.getD i 0))
            + ZopfliGetDistSymbolExtraBits (ZopfliGetDistSymbol (dists.getD i 0)))).sum := by
  intro T
  induction T with
  | nil =>
    intro _
    simp only [List.countP_nil, Nat.mul_zero, Nat.add_zero]
    have z : ∀ R : List Nat, (R.map (fun _ : Nat => (0 : Nat))).sum = 0 := by
      intro R
      induction R with
      | nil => rfl
      | cons a u ihu => simpa using ihu
    rw [List.map_nil, List.sum_nil, z, z, z]
    rfl
  | cons x t ih =>
    intro hT
    have hx := hT x (List.mem_cons_self x t)
    have IH := ih (fun i hi => hT i (List.mem_cons_of_mem x hi))
    simp only [List.countP_cons, List.map_cons, List.sum_cons]
    by_cases hd : dists.getD x 0 = 0
    · have hlit : litlens.getD x 0 < 256 := hx.1 hd
      have eLL : ∀ s : Nat,
          (if (decide ((if dists.getD x 0 = 0 then litlens.getD x 0
            else ZopfliGetLengthSymbol (litlens.getD x 0)) = s)) = true then (1 : Nat) else 0)
          = (if litlens.getD x 0 = s then 1 else 0) := by
        intro s
        rw [if_pos hd]
        simp only [decide_eq_true_eq]
      have eD : ∀ s : Nat,
          (if (decide (dists.getD x 0 ≠ 0
            ∧ ZopfliGetDistSymbol (dists.getD x 0) = s)) = true then (1 : Nat) else 0)
          = 0 := by
        intro s
        simp only [decide_eq_true_eq]
        rw [if_neg (fun h => h.1 hd)]
      simp only [eLL, eD, Nat.add_zero]
      rw [sum_map_bump (fun s c => ll s * c) ll (fun s c => by ring)
          (fun s => t.countP (fun i => (if dists.getD i 0 = 0 then litlens.getD i 0
            else ZopfliGetLengthSymbol (litlens.getD i 0)) = s))
          (litlens.getD x 0) (List.range' 0 256) (List.nodup_range' 0 256)
          (by simp only [List.mem_range'_1]; omega),
        sum_map_nobump (fun s c => ll s * c + ZopfliGetLengthSymbolExtraBits s * c)
          (fun s => t.countP (fun i => (if dists.getD i 0 = 0 then litlens.getD i 0
            else ZopfliGetLengthSymbol (litlens.getD i 0)) = s))
          (litlens.getD x 0) (List.range' 257 29)
          (by simp only [List.mem_range'_1]; omega),
        if_pos hd, ← IH]
      omega
    · have hb := ZopfliGetLengthSymbol_bounds (litlens.getD x 0) (hx.2 hd).1 (hx.2 hd).2.1
      have hd30 := ZopfliGetDistSymbol_lt (dists.getD x 0)
      have eLL : ∀ s : Nat,
          (if (decide ((if dists.getD x 0 = 0 then litlens.getD x 0
            else ZopfliGetLengthSymbol (litlens.getD x 0)) = s)) = true then (1 : Nat) else 0)
          = (if ZopfliGetLengthSymbol (litlens.getD x 0) = s then 1 else 0) := by
        intro s
        rw [if_neg hd]
        simp only [decide_eq_true_eq]
      have eD : ∀ s : Nat,
          (if (decide (dists.getD x 0 ≠ 0
            ∧ ZopfliGetDistSymbol (dists.getD x 0) = s)) = true then (1 : Nat) else 0)
          = (if ZopfliGetDistSymbol (dists.getD x 0) = s then 1 else 0) := by
        intro s
        simp only [decide_eq_true_eq]
        by_cases hq : ZopfliGetDistSymbol (dists.getD x 0) = s
        · rw [if_pos ⟨hd, hq⟩, if_pos hq]
        · rw [if_neg (fun h => hq h.2), if_neg hq]
      simp only [eLL, eD]
      rw [sum_map_nobump (fun s c => ll s * c)
          (fun s => t.countP (fun i => (if dists.getD i 0 = 0 then litlens.getD i 0
            else ZopfliGetLengthSymbol (litlens.getD i 0)) = s))
          (ZopfliGetLengthSymbol (litlens.getD x 0)) (List.range' 0 256)
          (by simp only [List.mem_range'_1]; omega),
        sum_map_bump (fun s c => ll s * c + ZopfliGetLengthSymbolExtraBits s * c)
          (fun s => ll s + ZopfliGetLengthSymbolExtraBits s) (fun s c => by ring)
          (fun s => t.countP (fun i => (if dists.getD i 0 = 0 then litlens.getD i 0
            else ZopfliGetLengthSymbol (litlens.getD i 0)) = s))
          (ZopfliGetLengthSymbol (litlens.getD x 0)) (List.range' 257 29)
          (List.nodup_range' 257 29) (by simp only [List.mem_range'_1]; omega),
        sum_map_bump (fun s c => d s * c + ZopfliGetDistSymbolExtraBits s * c)
          (fun s => d s + ZopfliGetDistSymbolExtraBits s) (fun s c => by ring)
          (fun s => t.countP (fun i => dists.getD i 0 ≠ 0
            ∧ ZopfliGetDistSymbol (dists.getD i 0) = s))
          (ZopfliGetDistSymbol (dists.getD x 0)) (List.range' 0 30)
          (List.nodup_range' 0 30) (by simp only [List.mem_range'_1]; omega),
        if_neg hd, ← IH]
      omega

/-- C3: for every store and every range, the token-by-token (small-range)
evaluation and the histogram-based (large-range) evaluation of the block
symbol size return exactly the same bit count: the dispatcher always agrees
with the small path. -/
theorem CalculateBlockSymbolSize_paths (ll d : Nat → Nat) (litlens dists : List Nat)
    (lstart lend : Nat)
    (hvalid : ∀ i, lstart ≤ i → i < lend →
      validToken (litlens.getD i 0) (dists.getD i 0)) :
    CalculateBlockSymbolSize ll d litlens dists lstart lend
      = CalculateBlockSymbolSizeSmall ll d litlens dists lstart lend := by
  simp only [CalculateBlockSymbolSize]
  split
  · rfl
  · rename_i hlarge
    have hT : ∀ i ∈ List.range' lstart (lend - lstart),
        validToken (litlens.getD i 0) (dists.getD i 0) := by
      intro i hi
      have := List.mem_range'_1.mp hi
      exact hvalid i (by omega) (by omega)
    rw [CalculateBlockSymbolSizeGivenCounts_mod, CalculateBlockSymbolSizeSmall_mod]
    simp only [blockSymbolSizeGivenCountsTrue]
    rw [if_neg hlarge]
    simp only [blockSymbolSizeSmallTrue, get_histogram_ll, get_histogram_d]
    rw [hist_token_sum ll d litlens dists (List.range' lstart (lend - lstart)) hT]

/-- Witness for C3 on a one-literal store. -/
theorem CalculateBlockSymbolSize_paths_witness :
    CalculateBlockSymbolSize (fun _ => 8) (fun _ => 5) [65] [0] 0 1
      = CalculateBlockSymbolSizeSmall (fun _ => 8) (fun _ => 5) [65] [0] 0 1 :=
  CalculateBlockSymbolSize_paths (fun _ => 8) (fun _ => 5) [65] [0] 0 1
    (by
      intro i h0 h1
      have hi : i = 0 := by omega
      subst hi
      exact ⟨fun _ => by norm_num, fun h => absurd rfl h⟩)

/-- C10: both block-symbol-size evaluators accumulate in 32-bit unsigned
arithmetic, so each returns its true bit total reduced mod 2^32; whenever the
true total reaches 2^32 the returned value is strictly smaller than (hence
not equal to) the true total. -/
theorem blockSymbolSize_truncates (ll_counts d_counts ll d : Nat → Nat)
    (litlens dists : List Nat) (lstart lend : Nat) :
    CalculateBlockSymbolSizeSmall ll d litlens dists lstart lend
      = blockSymbolSizeSmallTrue ll d litlens dists lstart lend % 2 ^ 32 ∧
    CalculateBlockSymbolSizeGivenCounts ll_counts d_counts ll d litlens dists lstart lend
      = blockSymbolSizeGivenCountsTrue ll_counts d_counts ll d litlens dists lstart lend
        % 2 ^ 32 ∧
    (2 ^ 32 ≤ blockSymbolSizeSmallTrue ll d litlens dists lstart lend →
      CalculateBlockSymbolSizeSmall ll d litlens dists lstart lend
        < blockSymbolSizeSmallTrue ll d litlens dists lstart lend) ∧
    (2 ^ 32 ≤ blockSymbolSizeGivenCountsTrue ll_counts d_counts ll d litlens dists lstart lend →
      CalculateBlockSymbolSizeGivenCounts ll_counts d_counts ll d litlens dists lstart lend
        < blockSymbolSizeGivenCountsTrue ll_counts d_counts ll d litlens dists lstart lend) := by
  refine ⟨CalculateBlockSymbolSizeSmall_mod ll d litlens dists lstart lend,
    CalculateBlockSymbolSizeGivenCounts_mod ll_counts d_counts ll d litlens dists lstart lend,
    fun h => ?_, fun h => ?_⟩
  · rw [CalculateBlockSymbolSizeSmall_mod]
    have := Nat.mod_lt (blockSymbolSizeSmallTrue ll d litlens dists lstart lend)
      (show 0 < 2 ^ 32 by norm_num)
    omega
  · rw [CalculateBlockSymbolSizeGivenCounts_mod]
    have := Nat.mod_lt
      (blockSymbolSizeGivenCountsTrue ll_counts d_counts ll d litlens dists lstart lend)
      (show 0 < 2 ^ 32 by norm_num)
    omega

set_option maxRecDepth 40000 in
/-- Witness for C10: a one-literal store whose true size is 2^33 - 2 makes
the small evaluator return less than the true total, and a large range with
count 1 everywhere under 2^32 - 1 bit lengths does the same for the
histogram evaluator. -/
theorem blockSymbolSize_truncates_witness :
    CalculateBlockSymbolSizeSmall (fun _ => 2 ^ 32 - 1) (fun _ => 0) [0] [0] 0 1
      < blockSymbolSizeSmallTrue (fun _ => 2 ^ 32 - 1) (fun _ => 0) [0] [0] 0 1 ∧
    CalculateBlockSymbolSizeGivenCounts (fun _ => 1) (fun _ => 0) (fun _ => 2 ^ 32 - 1)
        (fun _ => 0) [] [] 0 864
      < blockSymbolSizeGivenCountsTrue (fun _ => 1) (fun _ => 0) (fun _ => 2 ^ 32 - 1)
        (fun _ => 0) [] [] 0 864 :=
  ⟨(blockSymbolSize_truncates (fun _ => 0) (fun _ => 0) (fun _ => 2 ^ 32 - 1) (fun _ => 0)
      [0] [0] 0 1).2.2.1 (by decide),
    (blockSymbolSize_truncates (fun _ => 1) (fun _ => 0) (fun _ => 2 ^ 32 - 1) (fun _ => 0)
      [] [] 0 864).2.2.2 (by decide)⟩


/-- The breakpoint search of `nbGo` stays in `[i, L]`, stops at `L` or at a
sub-length change, and `v` is constant up to the breakpoint it returns. -/
theorem nbGo_spec (v : Nat → Nat) (L : Nat) : ∀ (fuel i : Nat), i + fuel = L →
    i ≤ nbGo v fuel i ∧ nbGo v fuel i ≤ L ∧
    (nbGo v fuel i = L ∨ v (nbGo v fuel i) ≠ v (nbGo v fuel i + 1)) ∧
    (∀ x, i ≤ x → x ≤ nbGo v fuel i → v x = v (nbGo v fuel i)) := by
  intro fuel
  induction fuel with
  | zero =>
    intro i hi
    simp only [nbGo]
    exact ⟨le_refl i, by omega, Or.inl (by omega), fun x hx1 hx2 => by
      have hxi : x = i := le_antisymm hx2 hx1
      rw [hxi]⟩
  | succ fuel ih =>
    intro i hi
    simp only [nbGo]
    by_cases hvi : v i ≠ v (i + 1)
    · rw [if_pos hvi]
      exact ⟨le_refl i, by omega, Or.inr hvi, fun x hx1 hx2 => by
        have hxi : x = i := le_antisymm hx2 hx1
        rw [hxi]⟩
    · rw [if_neg hvi]
      have h := ih (i + 1) (by omega)
      refine ⟨by omega, h.2.1, h.2.2.1, ?_⟩
      intro x hx1 hx2
      by_cases hx : x = i
      · subst hx
        have h1 : v (x + 1) = v (nbGo v fuel (x + 1)) := h.2.2.2 (x + 1) (le_refl _) h.1
        have h2 : v x = v (x + 1) := not_ne_iff.mp hvi
        exact h2.trans h1
      · exact h.2.2.2 x (by omega) hx2

/-- The first breakpoint at or after `i` lies in `[i, L]`, is `L` or a
sub-length change, and `v` is constant on `[i, nextBp]`. -/
theorem nextBp_spec (v : Nat → Nat) (L i : Nat) (hiL : i ≤ L) :
    i ≤ nextBp v L i ∧ nextBp v L i ≤ L ∧
    (nextBp v L i = L ∨ v (nextBp v L i) ≠ v (nextBp v L i + 1)) ∧
    (∀ x, i ≤ x → x ≤ nextBp v L i → v x = v (nextBp v L i)) := by
  unfold nextBp
  by_cases h : L ≤ i
  · rw [if_pos h]
    have hiL' : i = L := le_antisymm hiL h
    subst hiL'
    exact ⟨le_refl i, le_refl i, Or.inl rfl, fun x h1 h2 => by
      have hxi : x = i := le_antisymm h2 h1
      rw [hxi]⟩
  · rw [if_neg h]
    exact nbGo_spec v L (L - i) i (by omega)

/-- At a recording position (`i = L` or a sub-length change) the next
breakpoint is the position itself. -/
theorem nextBp_eq_self (v : Nat → Nat) (L i : Nat) (hiL : i ≤ L)
    (hbp : i = L ∨ v i ≠ v (i + 1)) : nextBp v L i = i := by
  unfold nextBp
  by_cases h : L ≤ i
  · rw [if_pos h]; omega
  · rw [if_neg h]
    rcases hbp with h1 | h2
    · omega
    · have hf : L - i = (L - i - 1) + 1 := by omega
      rw [hf]
      simp only [nbGo]
      rw [if_pos h2]

/-- At a non-recording position the next breakpoint is unchanged by one step. -/
theorem nextBp_step (v : Nat → Nat) (L i : Nat) (hiL : i < L) (hv : v i = v (i + 1)) :
    nextBp v L i = nextBp v L (i + 1) := by
  unfold nextBp
  rw [if_neg (by omega)]
  have h1 : L - i = (L - i - 1) + 1 := by omega
  rw [h1]
  simp only [nbGo]
  rw [if_neg (fun hne => hne hv)]
  by_cases h2 : L ≤ i + 1
  · rw [if_pos h2]
    have h0 : L - i - 1 = 0 := by omega
    rw [h0]
    simp only [nbGo]
    omega
  · rw [if_neg h2]
    have h0 : L - i - 1 = L - (i + 1) := by omega
    rw [h0]

/-- Skipping a constant stretch of `v` advances the breakpoint search. -/
theorem nbGo_shift (v : Nat → Nat) : ∀ (n fuel i : Nat),
    (∀ x, i ≤ x → x < i + n → v x = v (x + 1)) → n ≤ fuel →
    nbGo v fuel i = nbGo v (fuel - n) (i + n) := by
  intro n
  induction n with
  | zero => intro fuel i _ _; simp
  | succ n ih =>
    intro fuel i hc hn
    have hf : fuel = (fuel - 1) + 1 := by omega
    rw [hf]
    simp only [nbGo]
    rw [if_neg (fun hne => hne (hc i (le_refl i) (by omega)))]
    rw [ih (fuel - 1) (i + 1) (fun x h1 h2 => hc x (by omega) (by omega)) (by omega)]
    rw [(by omega : fuel - 1 - n = (fuel - 1 + 1) - (n + 1))]
    rw [(by omega : i + 1 + n = i + (n + 1))]

/-- On a stretch where `v` never changes the breakpoint search runs out of
fuel, i.e. reaches `i + fuel`. -/
theorem nbGo_const_all (v : Nat → Nat) : ∀ (fuel i : Nat),
    (∀ x, i ≤ x → x < i + fuel → v x = v (x + 1)) →
    nbGo v fuel i = i + fuel := by
  intro fuel
  induction fuel with
  | zero => intro i _; simp [nbGo]
  | succ fuel ih =>
    intro i hc
    simp only [nbGo]
    rw [if_neg (fun hne => hne (hc i (le_refl i) (by omega)))]
    rw [ih (i + 1) (fun x h1 h2 => hc x (by omega) (by omega))]
    omega

/-- The scan loop of `ZopfliSublenToCache` equals the breakpoint-jumping
reformulation: with full fuel `L + 1 - i` and a free slot, `stcGo` and
`specLoop` write the same slots and return the same cache, slot count and
bestlength. -/
theorem stcGo_eq_specLoop (v : Nat → Nat) (start L : Nat) :
    ∀ (fuel i j best : Nat) (c : Nat → Nat),
    3 ≤ i → i ≤ L → i + fuel = L + 1 → j < 8 →
    stcGo v start L fuel i j best c = specLoop v start L (8 - j) j i c := by
  intro fuel
  induction fuel with
  | zero => intro i j best c _ h2 h3 _; omega
  | succ fuel ih =>
    intro i j best c h3i hiL hfuel hj
    have h8 : 8 - j = (7 - j) + 1 := by omega
    rw [h8]
    simp only [stcGo, specLoop]
    by_cases hbp : i = L ∨ v i ≠ v (i + 1)
    · rw [if_pos hbp, nextBp_eq_self v L i hiL hbp]
      by_cases hj8 : 8 ≤ j + 1
      · rw [if_pos hj8, if_pos (Or.inl hj8)]
      · rw [if_neg hj8]
        by_cases hiL' : i = L
        · have hf0 : fuel = 0 := by omega
          subst hf0
          rw [if_pos (Or.inr hiL')]
          simp only [stcGo]
        · rw [if_neg (by push_neg; exact ⟨by omega, hiL'⟩)]
          rw [ih (i + 1) (j + 1) (i % 2 ^ 32) (stcSlot v start c j i)
            (by omega) (by omega) (by omega) (by omega)]
          rw [(by omega : 8 - (j + 1) = 7 - j)]
    · rw [if_neg hbp]
      push_neg at hbp
      rw [nextBp_step v L i (by omega) hbp.2]
      rw [ih (i + 1) j best c (by omega) (by omega) (by omega) hj]
      rw [h8]
      simp only [specLoop]


/-- A successful run of `specLoop` from slot `j` produces a non-empty chain of
breakpoints: the slot count advances by the chain length (at most the fuel),
the returned bestlength is the truncated last breakpoint, the written slots
satisfy `ReadChainInv`, and no other cache byte changes. -/
theorem specLoop_spec (v : Nat → Nat) (start L : Nat) (hL258 : L ≤ 258)
    (hv : ∀ x, x ≤ L → v x < 65536) : ∀ (g j i : Nat) (c : Nat → Nat),
    g + j = 8 → j < 8 → 3 ≤ i → i ≤ L →
    ∃ chain bL, chain ≠ [] ∧
      chain.length ≤ g ∧
      (specLoop v start L g j i c).2.1 = j + chain.length ∧
      chain.getLast? = some bL ∧
      (specLoop v start L g j i c).2.2 = bL % 2 ^ 32 ∧
      bL ≤ L ∧
      (∀ y ∈ chain, i ≤ y) ∧
      ReadChainInv (specLoop v start L g j i c).1 v start j i chain ∧
      (∀ y, (∀ m, j ≤ m → m < j + chain.length →
          y ≠ start + m * 3 ∧ y ≠ start + m * 3 + 1 ∧ y ≠ start + m * 3 + 2) →
        (specLoop v start L g j i c).1 y = c y) := by
  intro g
  induction g with
  | zero => intro j i c hg hj _ _; omega
  | succ g ih =>
    intro j i c hg hj h3i hiL
    obtain ⟨hb1, hb2, hb3, hb4⟩ := nextBp_spec v L i hiL
    simp only [specLoop]
    by_cases hstop : 8 ≤ j + 1 ∨ nextBp v L i = L
    · rw [if_pos hstop]
      refine ⟨[nextBp v L i], nextBp v L i, by simp,
        by simp only [List.length_singleton]; omega, by simp, by simp, rfl, hb2,
        fun y hy => by simp at hy; omega, ?_, ?_⟩
      · simp only [ReadChainInv]
        refine ⟨?_, ?_, ?_, by omega, by omega, hv _ hb2, by omega,
          fun x _ h2 h3 => hb4 x h2 h3, by simp, trivial⟩
        · show stcSlot v start c j (nextBp v L i) (start + j * 3) = nextBp v L i - 3
          simp [stcSlot, upd]
          omega
        · show stcSlot v start c j (nextBp v L i) (start + j * 3 + 1) = v (nextBp v L i) % 256
          simp [stcSlot, upd]
        · show stcSlot v start c j (nextBp v L i) (start + j * 3 + 2) =
            v (nextBp v L i) / 256 % 256
          simp [stcSlot, upd]
      · intro y hy
        have h0 := hy j (le_refl j) (by simp only [List.length_singleton]; omega)
        show stcSlot v start c j (nextBp v L i) y = c y
        simp only [stcSlot, upd]
        rw [if_neg h0.2.2, if_neg h0.2.1, if_neg h0.1]
    · rw [if_neg hstop]
      push_neg at hstop
      obtain ⟨hj1, hbL⟩ := hstop
      obtain ⟨chain', bL', hne', hlenle', hlen', hlast', hbest', hbLle', hmem', hinv', hframe'⟩ :=
        ih (j + 1) (nextBp v L i + 1) (stcSlot v start c j (nextBp v L i))
          (by omega) (by omega) (by omega) (by omega)
      refine ⟨nextBp v L i :: chain', bL', by simp,
        by simp only [List.length_cons]; omega,
        by rw [hlen']; simp only [List.length_cons]; omega, ?_, hbest', hbLle', ?_, ?_, ?_⟩
      · cases chain' with
        | nil => exact absurd rfl hne'
        | cons hd tl => rw [List.getLast?_cons_cons]; exact hlast'
      · intro y hy
        rcases List.mem_cons.mp hy with h | h
        · rw [h]; exact hb1
        · have := hmem' y h; omega
      · simp only [ReadChainInv]
        refine ⟨?_, ?_, ?_, by omega, by omega, hv _ hb2, by omega,
          fun x _ h2 h3 => hb4 x h2 h3, ?_, hinv'⟩
        · rw [hframe' (start + j * 3) (fun m hm1 hm2 => ⟨by omega, by omega, by omega⟩)]
          show stcSlot v start c j (nextBp v L i) (start + j * 3) = nextBp v L i - 3
          simp [stcSlot, upd]
          omega
        · rw [hframe' (start + j * 3 + 1) (fun m hm1 hm2 => ⟨by omega, by omega, by omega⟩)]
          show stcSlot v start c j (nextBp v L i) (start + j * 3 + 1) = v (nextBp v L i) % 256
          simp [stcSlot, upd]
        · rw [hframe' (start + j * 3 + 2) (fun m hm1 hm2 => ⟨by omega, by omega, by omega⟩)]
          show stcSlot v start c j (nextBp v L i) (start + j * 3 + 2) =
            v (nextBp v L i) / 256 % 256
          simp [stcSlot, upd]
        · intro b2 hb2'
          have := hmem' b2 hb2'
          omega
      · intro y hy
        rw [hframe' y (fun m hm1 hm2 =>
          hy m (by omega) (by simp only [List.length_cons]; omega))]
        have h0 := hy j (le_refl j) (by simp only [List.length_cons]; omega)
        show stcSlot v start c j (nextBp v L i) y = c y
        simp only [stcSlot, upd]
        rw [if_neg h0.2.2, if_neg h0.2.1, if_neg h0.1]

/-- The head constancy interval of `ReadChainInv` already has the lower bound
3, so the invariant at `prev = 3` gives the invariant at `prev = 0`. -/
theorem ReadChainInv_prev_zero (c v : Nat → Nat) (start j : Nat) (chain : List Nat)
    (h : ReadChainInv c v start j 3 chain) : ReadChainInv c v start j 0 chain := by
  cases chain with
  | nil => trivial
  | cons b rest =>
    simp only [ReadChainInv] at h ⊢
    obtain ⟨e0, e1, e2, h3, h4, h5, _hpb, hc, ho, hr⟩ := h
    exact ⟨e0, e1, e2, h3, h4, h5, Nat.zero_le _,
      fun x hx1 _ hx3 => hc x hx1 hx1 hx3, ho, hr⟩

/-- Updating a cache byte outside the chain's slots preserves `ReadChainInv`. -/
theorem ReadChainInv_upd_out (c v : Nat → Nat) (start w val : Nat) :
    ∀ (chain : List Nat) (j prev : Nat), (∀ m, j ≤ m → m < j + chain.length →
        w ≠ start + m * 3 ∧ w ≠ start + m * 3 + 1 ∧ w ≠ start + m * 3 + 2) →
    ReadChainInv c v start j prev chain → ReadChainInv (upd c w val) v start j prev chain := by
  intro chain
  induction chain with
  | nil => intro j prev _ _; trivial
  | cons b rest ih =>
    intro j prev hw h
    simp only [ReadChainInv] at h ⊢
    obtain ⟨e0, e1, e2, h3, h4, h5, hpb, hc, ho, hr⟩ := h
    have h0 := hw j (le_refl j) (by simp only [List.length_cons]; omega)
    refine ⟨?_, ?_, ?_, h3, h4, h5, hpb, hc, ho,
      ih (j + 1) (b + 1) (fun m hm1 hm2 =>
        hw m (by omega) (by simp only [List.length_cons]; omega)) hr⟩
    · simp only [upd]; rw [if_neg (Ne.symm h0.1)]; exact e0
    · simp only [upd]; rw [if_neg (Ne.symm h0.2.1)]; exact e1
    · simp only [upd]; rw [if_neg (Ne.symm h0.2.2)]; exact e2

/-- Reading back a cache whose slots satisfy `ReadChainInv` with last
breakpoint `B` reproduces `v` on positions `max 3 prev .. B` and leaves
positions below `prev` untouched. -/
theorem ctsGo_read (c v : Nat → Nat) (start B : Nat) :
    ∀ (chain : List Nat) (j prev : Nat) (out : Nat → Nat),
    chain ≠ [] → j + chain.length ≤ 8 →
    ReadChainInv c v start j prev chain →
    chain.getLast? = some B →
    (∀ x, 3 ≤ x → prev ≤ x → x ≤ B → ctsGo c start B (8 - j) j prev out x = v x) ∧
    (∀ x, x < prev → ctsGo c start B (8 - j) j prev out x = out x) := by
  intro chain
  induction chain with
  | nil => intro j prev out hne; exact absurd rfl hne
  | cons b rest ih =>
    intro j prev out _ hlen hinv hlast
    simp only [ReadChainInv] at hinv
    obtain ⟨e0, e1, e2, hb3, hb258, hvb, hpb, hconst, hord, hinv'⟩ := hinv
    have hj7 : j ≤ 7 := by simp only [List.length_cons] at hlen; omega
    have h8 : 8 - j = (7 - j) + 1 := by omega
    rw [h8]
    simp only [ctsGo]
    rw [e0, e1, e2]
    rw [(by omega : b - 3 + 3 = b)]
    rw [(by omega : v b % 256 + 256 * (v b / 256 % 256) = v b)]
    cases rest with
    | nil =>
      have hBb : b = B := by simpa using hlast
      rw [if_pos hBb]
      constructor
      · intro x hx3 hxp hxB
        simp only [writeRange]
        rw [if_pos ⟨hxp, by omega⟩]
        exact (hconst x hx3 hxp (by omega)).symm
      · intro x hxp
        simp only [writeRange]
        rw [if_neg (by omega)]
    | cons r rs =>
      rw [List.getLast?_cons_cons] at hlast
      have hbB : b < B := hord B (List.mem_of_mem_getLast? hlast)
      rw [if_neg (by omega)]
      have hIH := ih (j + 1) (b + 1) (writeRange out prev b (v b)) (by simp)
        (by simp only [List.length_cons] at hlen ⊢; omega) hinv' hlast
      rw [(by omega : 8 - (j + 1) = 7 - j)] at hIH
      constructor
      · intro x hx3 hxp hxB
        by_cases hxb : x ≤ b
        · rw [hIH.2 x (by omega)]
          simp only [writeRange]
          rw [if_pos ⟨hxp, hxb⟩]
          exact (hconst x hx3 hxp hxb).symm
        · exact hIH.1 x hx3 (by omega) hxB
      · intro x hxp
        rw [hIH.2 x (by omega)]
        simp only [writeRange]
        rw [if_neg (by omega)]


/-- C2 amended: for every position, sublen table `v` with u16 entries (the
Rust `c_ushort` element type) and length `3 ≤ L ≤ 258` (the data model's
maximum match length), a successful `ZopfliSublenToCache` followed by
`ZopfliCacheToSublen` reproduces `v` on all lengths `3 ≤ x ≤
ZopfliMaxCachedSublen`.  The upper bound on `L` is required: the claim as
stated fails at `L = 2^32 + 100` (see the counterexample), where the
`as c_uint` truncation of `bestlength` lets all three asserts pass. -/
theorem sublen_cache_roundtrip (v : Nat → Nat) (pos L : Nat) (c0 out c : Nat → Nat)
    (hsucc : ZopfliSublenToCache v pos L c0 = some c)
    (hL3 : 3 ≤ L) (hL258 : L ≤ 258) (hv : ∀ x, x ≤ L → v x < 65536) :
    ∀ x, 3 ≤ x → x ≤ ZopfliMaxCachedSublen c pos →
      ZopfliCacheToSublen c pos L out x = v x := by
  intro x hx3 hxB
  simp only [ZopfliSublenToCache] at hsucc
  rw [if_neg (by omega)] at hsucc
  rw [stcGo_eq_specLoop v (8 * pos * 3) L (L - 2) 3 0 0 c0
    (by omega) (by omega) (by omega) (by omega)] at hsucc
  simp only [Nat.sub_zero] at hsucc
  obtain ⟨chain, bL, hne, hlenle, hj', hlast, hbest, hbLle, hmem, hinv, hframe⟩ :=
    specLoop_spec v (8 * pos * 3) L hL258 hv 8 0 3 c0 (by omega) (by omega) (by omega) (by omega)
  set r := specLoop v (8 * pos * 3) L 8 0 3 c0 with hr
  by_cases hj8 : r.2.1 < 8
  · rw [if_pos hj8] at hsucc
    by_cases hbestL : r.2.2 = L % 2 ^ 32
    · rw [if_pos hbestL] at hsucc
      by_cases hmg : r.2.2 =
          ZopfliMaxCachedSublen (upd r.1 (8 * pos * 3 + 7 * 3) ((r.2.2 + (2 ^ 32 - 3)) % 2 ^ 32 % 256)) pos
      · rw [if_pos hmg] at hsucc
        have hc : c = upd r.1 (8 * pos * 3 + 7 * 3) ((r.2.2 + (2 ^ 32 - 3)) % 2 ^ 32 % 256) :=
          (Option.some.inj hsucc).symm
        have hbLL : bL = L := by
          have h1 : bL % 2 ^ 32 = L % 2 ^ 32 := by rw [← hbest]; exact hbestL
          omega
        have hB : ZopfliMaxCachedSublen c pos = L := by
          rw [hc, ← hmg, hbestL]
          omega
        have hlen7 : chain.length ≤ 7 := by omega
        have hinv2 : ReadChainInv c v (8 * pos * 3) 0 3 chain := by
          rw [hc]
          apply ReadChainInv_upd_out
          · intro m hm1 hm2
            exact ⟨by omega, by omega, by omega⟩
          · exact hinv
        have hread := ctsGo_read c v (8 * pos * 3) L chain 0 0 out hne (by omega)
          (ReadChainInv_prev_zero c v (8 * pos * 3) 0 chain hinv2)
          (by rw [← hbLL]; exact hlast)
        simp only [Nat.sub_zero] at hread
        simp only [ZopfliCacheToSublen]
        rw [if_neg (by omega), hB]
        rw [hB] at hxB
        exact hread.1 x hx3 (by omega) hxB
      · rw [if_neg hmg] at hsucc; exact absurd hsucc (by simp)
    · rw [if_neg hbestL] at hsucc; exact absurd hsucc (by simp)
  · rw [if_neg hj8] at hsucc
    by_cases hble : r.2.2 ≤ L % 2 ^ 32
    · rw [if_pos hble] at hsucc
      by_cases hmg : r.2.2 = ZopfliMaxCachedSublen r.1 pos
      · rw [if_pos hmg] at hsucc
        have hc : c = r.1 := (Option.some.inj hsucc).symm
        have hbLeq : r.2.2 = bL := by rw [hbest]; omega
        have hB : ZopfliMaxCachedSublen c pos = bL := by rw [hc, ← hmg]; exact hbLeq
        have hread := ctsGo_read c v (8 * pos * 3) bL chain 0 0 out hne (by omega)
          (ReadChainInv_prev_zero c v (8 * pos * 3) 0 chain (by rw [hc]; exact hinv)) hlast
        simp only [Nat.sub_zero] at hread
        simp only [ZopfliCacheToSublen]
        rw [if_neg (by omega), hB]
        rw [hB] at hxB
        exact hread.1 x hx3 (by omega) hxB
      · rw [if_neg hmg] at hsucc; exact absurd hsucc (by simp)
    · rw [if_neg hble] at hsucc; exact absurd hsucc (by simp)

/-- Witness for C2 (amended) on the S4 table (distances 5,7,9) with L = 8:
the cached table reads back `v 5 = 5`. -/
theorem sublen_cache_roundtrip_witness :
    ZopfliCacheToSublen ((ZopfliSublenToCache vS4 0 8 zeroF).getD zeroF) 0 8 zeroF 5 = vS4 5 ∧
    3 ≤ 5 ∧ 5 ≤ ZopfliMaxCachedSublen ((ZopfliSublenToCache vS4 0 8 zeroF).getD zeroF) 0 :=
  ⟨sublen_cache_roundtrip vS4 0 8 zeroF zeroF
      ((ZopfliSublenToCache vS4 0 8 zeroF).getD zeroF) rfl (by norm_num) (by norm_num)
      (by decide) 5 (by norm_num) (by decide),
    by norm_num, by decide⟩

/-- Counterexample to C2 as stated: at `L = 2^32 + 100` with the table `vBig`
(5 up to length 300, then 7), `ZopfliSublenToCache` succeeds (all asserts
pass, `bestlength` having wrapped to 100), `ZopfliMaxCachedSublen` returns
100, yet reading back length 45 gives 7 while `vBig 45 = 5`: the output
differs from `v` inside `[3, max_cached_sublen]`. -/
theorem sublen_cache_roundtrip_cex :
    (ZopfliSublenToCache vBig 0 LBig zeroF).map
        (fun c => (ZopfliMaxCachedSublen c 0, ZopfliCacheToSublen c 0 LBig zeroF 45)) =
      some (100, 7) ∧ vBig 45 = 5 ∧ 3 ≤ LBig ∧ (3 ≤ 45 ∧ 45 ≤ 100) := by
  refine ⟨?_, by decide, by norm_num [LBig], by norm_num⟩
  have hnb : ∀ (f i : Nat), nbGo vBig (f + 1) i =
      if vBig i ≠ vBig (i + 1) then i else nbGo vBig f (i + 1) := fun f i => rfl
  have h1 : nextBp vBig LBig 3 = 300 := by
    unfold nextBp
    rw [if_neg (by norm_num [LBig])]
    rw [nbGo_shift vBig 297 (LBig - 3) 3
      (fun x hx1 hx2 => by
        simp only [vBig]
        rw [if_pos (by omega), if_pos (by omega)])
      (by norm_num [LBig])]
    rw [(by norm_num [LBig] : LBig - 3 - 297 = (LBig - 301) + 1)]
    rw [(by norm_num : (3 : Nat) + 297 = 300)]
    rw [hnb]
    rw [if_pos (by decide)]
  have h2 : nextBp vBig LBig 301 = LBig := by
    unfold nextBp
    rw [if_neg (by norm_num [LBig])]
    rw [nbGo_const_all vBig (LBig - 301) 301
      (fun x hx1 hx2 => by
        simp only [vBig]
        rw [if_neg (by omega), if_neg (by omega)])]
    norm_num [LBig]
  have hstep : ∀ (f j i : Nat) (c : Nat → Nat), specLoop vBig (8 * 0 * 3) LBig (f + 1) j i c =
      if 8 ≤ j + 1 ∨ nextBp vBig LBig i = LBig then
        (stcSlot vBig (8 * 0 * 3) c j (nextBp vBig LBig i), j + 1, nextBp vBig LBig i % 2 ^ 32)
      else specLoop vBig (8 * 0 * 3) LBig f (j + 1) (nextBp vBig LBig i + 1)
        (stcSlot vBig (8 * 0 * 3) c j (nextBp vBig LBig i)) :=
    fun f j i c => rfl
  have hs1 : specLoop vBig (8 * 0 * 3) LBig (8 - 0) 0 3 zeroF =
      (stcSlot vBig (8 * 0 * 3) (stcSlot vBig (8 * 0 * 3) zeroF 0 300) 1 LBig, 2,
        LBig % 2 ^ 32) := by
    rw [show (8 : Nat) - 0 = 7 + 1 from rfl, hstep]
    rw [h1]
    rw [if_neg (by norm_num [LBig])]
    rw [(by norm_num : (300 : Nat) + 1 = 301), (by norm_num : (0 : Nat) + 1 = 1)]
    rw [show (7 : Nat) = 6 + 1 from rfl, hstep]
    rw [h2]
    rw [if_pos (Or.inr rfl)]
  have hbig : ZopfliSublenToCache vBig 0 LBig zeroF =
      some (upd (stcSlot vBig (8 * 0 * 3) (stcSlot vBig (8 * 0 * 3) zeroF 0 300) 1 LBig)
        (8 * 0 * 3 + 7 * 3) ((LBig % 2 ^ 32 + (2 ^ 32 - 3)) % 2 ^ 32 % 256)) := by
    simp only [ZopfliSublenToCache]
    rw [if_neg (by norm_num [LBig])]
    rw [stcGo_eq_specLoop vBig (8 * 0 * 3) LBig (LBig - 2) 3 0 0 zeroF
      (by norm_num) (by norm_num [LBig]) (by norm_num [LBig]) (by norm_num)]
    rw [hs1]
    rfl
  rw [hbig]
  decide

/-- The entry loop of `ZopfliCacheToSublen` never writes below `prevlength`
once `prevlength ≥ 4`: entry lengths are at least 3, so later slots only
write indices from 4 up. -/
theorem ctsGo_low_frame (c : Nat → Nat) (start maxlength : Nat) :
    ∀ (fuel j prev : Nat) (out : Nat → Nat) (x : Nat), 4 ≤ prev → x ≤ 2 →
      ctsGo c start maxlength fuel j prev out x = out x := by
  intro fuel
  induction fuel with
  | zero => intro j prev out x _ _; rfl
  | succ fuel ih =>
    intro j prev out x hprev hx
    simp only [ctsGo]
    by_cases hlen : c (start + j * 3) + 3 = maxlength
    · rw [if_pos hlen]
      simp only [writeRange]
      rw [if_neg (by omega)]
    · rw [if_neg hlen]
      rw [ih (j + 1) (c (start + j * 3) + 3 + 1) (writeRange out prev (c (start + j * 3) + 3)
        (c (start + j * 3 + 1) + 256 * c (start + j * 3 + 2))) x (by omega) hx]
      simp only [writeRange]
      rw [if_neg (by omega)]

/-- C9: `ZopfliCacheToSublen` with `L ≥ 3` on a cached position also writes
`out[0]`, `out[1]` and `out[2]`: the first entry's fill loop starts at index
0 and its length is at least 3, so all three slots receive the distance of
the first cached entry. -/
theorem ZopfliCacheToSublen_writes_low (c : Nat → Nat) (pos L : Nat) (out : Nat → Nat)
    (hL : 3 ≤ L) (_hcache : ZopfliMaxCachedSublen c pos ≠ 0) :
    ∀ x, x ≤ 2 → ZopfliCacheToSublen c pos L out x =
      c (8 * pos * 3 + 1) + 256 * c (8 * pos * 3 + 2) := by
  intro x hx
  simp only [ZopfliCacheToSublen]
  rw [if_neg (by omega)]
  have hstep : ctsGo c (8 * pos * 3) (ZopfliMaxCachedSublen c pos) 8 0 0 out =
      if c (8 * pos * 3 + 0 * 3) + 3 = ZopfliMaxCachedSublen c pos then
        writeRange out 0 (c (8 * pos * 3 + 0 * 3) + 3)
          (c (8 * pos * 3 + 0 * 3 + 1) + 256 * c (8 * pos * 3 + 0 * 3 + 2))
      else
        ctsGo c (8 * pos * 3) (ZopfliMaxCachedSublen c pos) 7 1 (c (8 * pos * 3 + 0 * 3) + 3 + 1)
          (writeRange out 0 (c (8 * pos * 3 + 0 * 3) + 3)
            (c (8 * pos * 3 + 0 * 3 + 1) + 256 * c (8 * pos * 3 + 0 * 3 + 2))) := rfl
  rw [hstep]
  by_cases hl : c (8 * pos * 3 + 0 * 3) + 3 = ZopfliMaxCachedSublen c pos
  · rw [if_pos hl]
    simp only [writeRange]
    rw [if_pos ⟨Nat.zero_le x, by omega⟩]
  · rw [if_neg hl]
    rw [ctsGo_low_frame c (8 * pos * 3) (ZopfliMaxCachedSublen c pos) 7 1 _ _ x (by omega) hx]
    simp only [writeRange]
    rw [if_pos ⟨Nat.zero_le x, by omega⟩]

/-- Witness for C9 on a cache with one entry (length 3, distance 9) and a
slot-7 length byte of 5: `out[1]` receives the first entry's distance 9. -/
theorem ZopfliCacheToSublen_writes_low_witness :
    ZopfliCacheToSublen (fun k => if k = 1 then 9 else if k = 21 then 5 else 0) 0 8 zeroF 1 =
      (fun k => if k = 1 then 9 else if k = 21 then 5 else 0) (8 * 0 * 3 + 1) +
        256 * (fun k => if k = 1 then 9 else if k = 21 then 5 else 0) (8 * 0 * 3 + 2) ∧
    3 ≤ 8 ∧ (1 : Nat) ≤ 2 ∧
    ZopfliMaxCachedSublen (fun k => if k = 1 then 9 else if k = 21 then 5 else 0) 0 ≠ 0 :=
  ⟨ZopfliCacheToSublen_writes_low (fun k => if k = 1 then 9 else if k = 21 then 5 else 0)
      0 8 zeroF (by norm_num) (by decide) 1 (by norm_num),
    by norm_num, by norm_num, by decide⟩
